import Mathlib

/-!
# Credential pool of `common/config/config.go`

A shallow embedding of the cookie pool of package `config`: the package-level
credential list `SGCookies`, the cooldown registry `rateLimitCookies`, the
view type `CookieManager` and the operations on them, followed by theorems
about these definitions.

Conventions of the embedding.

* A Go `string` is a Lean `String` (the text is taken to be valid UTF-8), a
  `[]string` is a `List String` (a nil slice and an empty slice are both
  `[]`).
* `time.Time` is a point on the integer line (`Time := Int`), and
  `a.After(b)` is `b < a`.  Every function that calls `time.Now()` takes the
  instant read from the clock as the argument `now`; the readings taken
  during one call of `NewCookieManager` are the same instant.
* `rateLimitCookies` is a `sync.Map`; it is a finite map from cookie to
  `RateLimitCookie`, embedded as a lookup function.  `AddRateLimitCookie` is
  the only writer and it only stores `RateLimitCookie` values, so the type
  assertions on loaded values always succeed.
* The package-level variables are collected in the record `Pkg`; a function
  that reads or writes them takes a `Pkg` and returns the new one.  The
  methods of `CookieManager` touch only their receiver, so they take and
  return the receiver only.
* A Go `error` is `Option String`: `none` is `nil`, `some m` is
  `errors.New(m)`.
* Mutexes are not modelled: every operation is one atomic step.
* Lists are values, so a list never changes after it was read.  Where a
  claim is about a copy that must survive a later mutation, `GetSGCookies`
  and the package-level `RemoveCookie` are also embedded on slices with
  backing arrays (`Slice`, `Heap`, `Mem`): `make`, `copy` and `append`
  allocate and write arrays as Go does, the capacity chosen by `append`
  when it grows a slice being a parameter.
-/

namespace config

/-- An instant of `time.Time`. -/
abbrev Time := Int

/-- The struct `RateLimitCookie`. -/
structure RateLimitCookie where
  ExpirationTime : Time
deriving DecidableEq, Repr

/-- The contents of the `sync.Map` `rateLimitCookies`: `R k` is what
`Load(k)` returns (`none` when there is no entry). -/
abbrev Registry := String → Option RateLimitCookie

/-- The registry after `Store(k, v)`. -/
def Registry.Store (R : Registry) (k : String) (v : RateLimitCookie) : Registry :=
  fun x => if x = k then some v else R x

/-- The registry after `Delete(k)`. -/
def Registry.Delete (R : Registry) (k : String) : Registry :=
  fun x => if x = k then none else R x

/-- The package-level variables `SGCookies` and `rateLimitCookies`. -/
structure Pkg where
  SGCookies : List String
  rateLimitCookies : Registry

/-- The struct `CookieManager` (without its mutex).  `currentIndex` is an
unexported `int` that is only ever assigned `0`, a remainder modulo the
length, or the result of `rand.Intn`, so it is a natural number. -/
structure CookieManager where
  Cookies : List String
  currentIndex : Nat
deriving DecidableEq, Repr

/-- The predicate `unicode.IsSpace` of the Go standard library: the Latin-1
spaces and the code points with the Unicode White_Space property. -/
def isSpace (r : Char) : Bool :=
  let n := r.toNat
  n == 0x09 || n == 0x0A || n == 0x0B || n == 0x0C || n == 0x0D || n == 0x20
    || n == 0x85 || n == 0xA0 || n == 0x1680 || (0x2000 ≤ n && n ≤ 0x200A)
    || n == 0x2028 || n == 0x2029 || n == 0x202F || n == 0x205F || n == 0x3000

/-- Drop the leading white space of a list of code points. -/
def trimLeft (l : List Char) : List Char := l.dropWhile isSpace

/-- Drop the trailing white space of a list of code points. -/
def trimRight (l : List Char) : List Char := (l.reverse.dropWhile isSpace).reverse

/-- The function `strings.TrimSpace` of the Go standard library: the string
without its leading and trailing white space. -/
def TrimSpace (s : String) : String := ⟨trimRight (trimLeft s.data)⟩

/-- The function `AddRateLimitCookie(cookie, expirationTime)`. -/
def AddRateLimitCookie (cookie : String) (expirationTime : Time) (p : Pkg) : Pkg :=
  { p with rateLimitCookies :=
      p.rateLimitCookies.Store cookie { ExpirationTime := expirationTime } }

/-- The function `GetSGCookies()`: a copy of `SGCookies`. -/
def GetSGCookies (p : Pkg) : List String := p.SGCookies

/-- The loop of the package-level `RemoveCookie`: `newCookies` is the
accumulator, the first list is what remains of the range. -/
def RemoveCookie.loop (cookieToRemove : String) : List String → List String → List String
  | [], newCookies => newCookies
  | cookie :: rest, newCookies =>
    if cookie ≠ cookieToRemove then
      RemoveCookie.loop cookieToRemove rest (newCookies ++ [cookie])
    else
      RemoveCookie.loop cookieToRemove rest newCookies

/-- The package-level function `RemoveCookie(cookieToRemove)`. -/
def RemoveCookie (cookieToRemove : String) (p : Pkg) : Pkg :=
  { p with SGCookies := RemoveCookie.loop cookieToRemove (GetSGCookies p) [] }

/-- The loop of `NewCookieManager` over the snapshot: the registry and
`validCookies` are threaded through the iterations. -/
def NewCookieManager.loop (now : Time) :
    List String → Registry → List String → Registry × List String
  | [], R, validCookies => (R, validCookies)
  | cookie :: rest, R, validCookies =>
    let cookie := TrimSpace cookie
    if cookie = "" then
      NewCookieManager.loop now rest R validCookies
    else
      match R cookie with
      | some rateLimitCookie =>
        if now < rateLimitCookie.ExpirationTime then
          NewCookieManager.loop now rest R validCookies
        else
          NewCookieManager.loop now rest (R.Delete cookie) (validCookies ++ [cookie])
      | none => NewCookieManager.loop now rest R (validCookies ++ [cookie])

/-- The function `NewCookieManager()`, with the clock reading `now`: the
package state after the call (expired entries met on the way are deleted from
the registry) and the view that is returned. -/
def NewCookieManager (p : Pkg) (now : Time) : Pkg × CookieManager :=
  let r := NewCookieManager.loop now (GetSGCookies p) p.rateLimitCookies []
  ({ p with rateLimitCookies := r.1 }, { Cookies := r.2, currentIndex := 0 })

/-- The function `IsRateLimited(cookie)`, with the clock reading `now`. -/
def IsRateLimited (p : Pkg) (now : Time) (cookie : String) : Bool :=
  match p.rateLimitCookies cookie with
  | some rateLimitCookie => decide (now < rateLimitCookie.ExpirationTime)
  | none => false

/-- The search loop of the method `RemoveCookie`: the index of the first
element equal to `cookieToRemove`, counting from `i`; `none` is the
initial `index := -1` left untouched. -/
def CookieManager.RemoveCookie.find (cookieToRemove : String) : List String → Nat → Option Nat
  | [], _ => none
  | cookie :: rest, i =>
    if cookie = cookieToRemove then some i
    else CookieManager.RemoveCookie.find cookieToRemove rest (i + 1)

/-- The method `(cm *CookieManager) RemoveCookie(cookieToRemove)`: the
receiver after the call and the error returned. -/
def CookieManager.RemoveCookie (cm : CookieManager) (cookieToRemove : String) :
    CookieManager × Option String :=
  if cm.Cookies.length = 0 then
    (cm, some "no cookies available")
  else
    match CookieManager.RemoveCookie.find cookieToRemove cm.Cookies 0 with
    | none => (cm, some "RemoveCookie -> cookie not found")
    | some index =>
      let cookies := cm.Cookies.take index ++ cm.Cookies.drop (index + 1)
      if cm.currentIndex ≥ cookies.length then
        ({ Cookies := cookies, currentIndex := 0 }, none)
      else
        ({ Cookies := cookies, currentIndex := cm.currentIndex }, none)

/-- The method `(cm *CookieManager) GetNextCookie()`: the receiver after the
call, the string and the error returned. -/
def CookieManager.GetNextCookie (cm : CookieManager) : CookieManager × String × Option String :=
  if h : cm.Cookies.length = 0 then
    (cm, "", some "no cookies available")
  else
    let currentIndex := (cm.currentIndex + 1) % cm.Cookies.length
    ({ cm with currentIndex := currentIndex },
      cm.Cookies.get ⟨currentIndex, Nat.mod_lt _ (Nat.pos_of_ne_zero h)⟩, none)

/-- The method `(cm *CookieManager) GetRandomCookie()`, where `randomIndex`
is the value drawn by `rand.Intn(len(cm.Cookies))`.  The result is `none`
when indexing would fail at run time, which no draw of `rand.Intn` does. -/
def CookieManager.GetRandomCookie (cm : CookieManager) (randomIndex : Nat) :
    Option (CookieManager × String × Option String) :=
  if cm.Cookies.length = 0 then
    some (cm, "", some "no cookies available")
  else
    match cm.Cookies[randomIndex]? with
    | some cookie => some ({ cm with currentIndex := randomIndex }, cookie, none)
    | none => none

/-- A registry without entries. -/
def emptyRegistry : Registry := fun _ => none

/-- What one registry lookup of the loop decides: the entry is present and
has not expired at `now`. -/
def Registry.limited (R : Registry) (now : Time) (cookie : String) : Bool :=
  match R cookie with
  | some rateLimitCookie => decide (now < rateLimitCookie.ExpirationTime)
  | none => false

/-- The effect of a list of later calls `AddRateLimitCookie(k, e)`, in order. -/
def addAll (ws : List (String × Time)) (p : Pkg) : Pkg :=
  ws.foldl (fun acc w => AddRateLimitCookie w.1 w.2 acc) p

/-- The results (string and error) of `k` consecutive calls of
`GetNextCookie` on the same view. -/
def nextResults : Nat → CookieManager → List (String × Option String)
  | 0, _ => []
  | k + 1, cm =>
    let r := cm.GetNextCookie
    (r.2.1, r.2.2) :: nextResults k r.1

/-- The scan of `strings.Split(s, ",")`: `field` holds the code points of
the field being read, the first list is the text still to read. -/
def Split.scan : List Char → List Char → List String
  | [], field => [String.mk field]
  | c :: rest, field =>
    if c = ',' then String.mk field :: Split.scan rest []
    else Split.scan rest (field ++ [c])

/-- The call `strings.Split(s, ",")` of the Go standard library: the fields
of `s` between the commas, in order, one more than there are commas. -/
def Split (s : String) : List String := Split.scan s.data []

/-- The loop of `InitSGCookies` over the fields of `SG_COOKIE`: every field
is appended to `SGCookies` as it is. -/
def InitSGCookies.loop : List String → List String → List String
  | [], SGCookies => SGCookies
  | cookie :: rest, SGCookies => InitSGCookies.loop rest (SGCookies ++ [cookie])

/-- The function `InitSGCookies()`, where `cookieStr` is the value that
`os.Getenv("SG_COOKIE")` returns. -/
def InitSGCookies (cookieStr : String) (p : Pkg) : Pkg :=
  if cookieStr ≠ "" then
    { p with SGCookies := InitSGCookies.loop (Split cookieStr) [] }
  else
    { p with SGCookies := [] }

/-- The cursor invariant of a view: the view is empty and the cursor is 0,
or the cursor is an index of the member list. -/
def cursorInv (cm : CookieManager) : Prop :=
  (cm.Cookies = [] ∧ cm.currentIndex = 0) ∨ cm.currentIndex < cm.Cookies.length

instance cursorInv.decidable (cm : CookieManager) : Decidable (cursorInv cm) := by
  unfold cursorInv
  exact inferInstance

/-- The views a caller can hold: those returned by `NewCookieManager`, and
those obtained from such a view by calls of `GetNextCookie`,
`GetRandomCookie` (with any draw on which the call returns) and the method
`RemoveCookie`, whether the call succeeds or fails. -/
inductive Reachable : CookieManager → Prop
  | build (p : Pkg) (now : Time) : Reachable (NewCookieManager p now).2
  | next (cm : CookieManager) : Reachable cm → Reachable cm.GetNextCookie.1
  | random (cm st : CookieManager) (r : Nat) (res : String × Option String) :
      Reachable cm → cm.GetRandomCookie r = some (st, res) → Reachable st
  | remove (cm : CookieManager) (c : String) :
      Reachable cm → Reachable (cm.RemoveCookie c).1

/-- The method `RemoveCookie` as a step of the whole program state, the
package-level variables together with the receiver.  The body of the
method assigns `cm.Cookies` and `cm.currentIndex` only: it does not call
the package-level `RemoveCookie` and assigns no package-level variable. -/
def CookieManager.RemoveCookie.step (p : Pkg) (cm : CookieManager) (cookieToRemove : String) :
    Pkg × CookieManager × Option String :=
  let r := cm.RemoveCookie cookieToRemove
  (p, r.1, r.2)

/-- A slice header of a `[]string` that starts at offset 0 of its backing
array: the address of the array (`none` for the nil slice) and the length.
The capacity is the length of the backing array. -/
structure Slice where
  arr : Option Nat
  len : Nat
deriving DecidableEq, Repr

/-- The backing arrays that were allocated, by address. -/
abbrev Heap := List (List String)

/-- The backing array at an address. -/
def Heap.array (h : Heap) : Option Nat → List String
  | some a => (h[a]?).getD []
  | none => []

/-- The elements of a slice: the first `len` elements of its array. -/
def Heap.elems (h : Heap) (s : Slice) : List String := (h.array s.arr).take s.len

/-- A slice is well-formed in a heap: its length is within its capacity and
its array was allocated. -/
def Heap.wf (h : Heap) (s : Slice) : Prop :=
  s.len ≤ (h.array s.arr).length ∧ ∀ a, s.arr = some a → a < h.length

/-- The call `make([]string, n)`: a new array of `n` empty strings. -/
def Heap.make (h : Heap) (n : Nat) : Heap × Slice :=
  (h ++ [List.replicate n ""], { arr := some h.length, len := n })

/-- The call `copy(dst, src)`: the first `min(len(dst), len(src))` elements
of `src` are written into the array of `dst`. -/
def Heap.copy (h : Heap) (dst src : Slice) : Heap :=
  match dst.arr with
  | some a =>
    let n := min dst.len src.len
    h.set a ((h.elems src).take n ++ (h.array dst.arr).drop n)
  | none => h

/-- The branch of `append(s, x)` that allocates: a new array that holds the
elements of `s`, then `x`, of capacity `grow (cap s)` or `len(s) + 1` if
that is more. -/
def Heap.grown (grow : Nat → Nat) (h : Heap) (s : Slice) (x : String) : Heap × Slice :=
  let newcap := max (grow (h.array s.arr).length) (s.len + 1)
  (h ++ [h.elems s ++ x :: List.replicate (newcap - (s.len + 1)) ""],
    { arr := some h.length, len := s.len + 1 })

/-- The call `append(s, x)`: `x` is written in place when the length is
below the capacity, and into a new array otherwise. -/
def Heap.append (grow : Nat → Nat) (h : Heap) (s : Slice) (x : String) : Heap × Slice :=
  match s.arr with
  | some a =>
    if s.len < (h.array s.arr).length then
      (h.set a ((h.array s.arr).set s.len x), { arr := some a, len := s.len + 1 })
    else
      h.grown grow s x
  | none => h.grown grow s x

/-- The memory behind the Credential Set: the heap and the slice header in
the package-level variable `SGCookies`. -/
structure Mem where
  heap : Heap
  SGCookies : Slice

/-- The function `GetSGCookies()` on slices: `make` then `copy`; the
memory after the call and the slice returned. -/
def Mem.GetSGCookies (m : Mem) : Mem × Slice :=
  let r := m.heap.make m.SGCookies.len
  ({ m with heap := r.1.copy r.2 m.SGCookies }, r.2)

/-- The loop of the package-level `RemoveCookie` on slices, over the slice
`rng` returned by `GetSGCookies()`: `n` iterations remain, `i` is the index
of the element read next, `newCookies` the slice being built. -/
def Mem.RemoveCookie.loop (grow : Nat → Nat) (cookieToRemove : String) (rng : Slice) :
    Nat → Nat → Heap → Slice → Heap × Slice
  | 0, _, h, newCookies => (h, newCookies)
  | n + 1, i, h, newCookies =>
    let cookie := ((h.elems rng)[i]?).getD ""
    if cookie ≠ cookieToRemove then
      let r := h.append grow newCookies cookie
      Mem.RemoveCookie.loop grow cookieToRemove rng n (i + 1) r.1 r.2
    else
      Mem.RemoveCookie.loop grow cookieToRemove rng n (i + 1) h newCookies

/-- The package-level function `RemoveCookie(cookieToRemove)` on slices:
`newCookies` starts as the nil slice and is assigned to `SGCookies` after
the loop. -/
def Mem.RemoveCookie (grow : Nat → Nat) (cookieToRemove : String) (m : Mem) : Mem :=
  let g := m.GetSGCookies
  let r := Mem.RemoveCookie.loop grow cookieToRemove g.2 g.2.len 0 g.1.heap
    { arr := none, len := 0 }
  { heap := r.1, SGCookies := r.2 }

/-! ## Lemmas on the registry -/

theorem isRateLimited_iff (p : Pkg) (q : Time) (k : String) :
    IsRateLimited p q k = true ↔
      ∃ e, p.rateLimitCookies k = some e ∧ q < e.ExpirationTime := by
  unfold IsRateLimited
  cases h : p.rateLimitCookies k with
  | none => simp
  | some e => simp

theorem isRateLimited_none (p : Pkg) (q : Time) (k : String)
    (h : p.rateLimitCookies k = none) : IsRateLimited p q k = false := by
  unfold IsRateLimited
  rw [h]

theorem isRateLimited_congr (p p' : Pkg) (q : Time) (k : String)
    (h : p.rateLimitCookies k = p'.rateLimitCookies k) :
    IsRateLimited p q k = IsRateLimited p' q k := by
  unfold IsRateLimited
  rw [h]

/-- A credential that is not rate-limited at `t` is not rate-limited later. -/
theorem isRateLimited_false_mono (p : Pkg) (t q : Time) (k : String) (htq : t ≤ q)
    (h : IsRateLimited p t k = false) : IsRateLimited p q k = false := by
  cases hq : IsRateLimited p q k with
  | false => rfl
  | true =>
    obtain ⟨e, he, hlt⟩ := (isRateLimited_iff p q k).1 hq
    have : IsRateLimited p t k = true := (isRateLimited_iff p t k).2 ⟨e, he, lt_of_le_of_lt htq hlt⟩
    rw [h] at this
    cases this

theorem add_lookup_self (p : Pkg) (c : String) (e : Time) :
    (AddRateLimitCookie c e p).rateLimitCookies c = some { ExpirationTime := e } := by
  simp [AddRateLimitCookie, Registry.Store]

theorem add_lookup_other (p : Pkg) (c k : String) (e : Time) (h : k ≠ c) :
    (AddRateLimitCookie c e p).rateLimitCookies k = p.rateLimitCookies k := by
  simp [AddRateLimitCookie, Registry.Store, h]

theorem add_SGCookies (p : Pkg) (c : String) (e : Time) :
    (AddRateLimitCookie c e p).SGCookies = p.SGCookies := rfl

theorem addAll_lookup (ws : List (String × Time)) (c : String) (hws : ∀ w ∈ ws, w.1 ≠ c) :
    ∀ p : Pkg, (addAll ws p).rateLimitCookies c = p.rateLimitCookies c := by
  induction ws with
  | nil => intro p; rfl
  | cons w ws ih =>
    intro p
    have hw : c ≠ w.1 := fun h => hws w (List.mem_cons_self _ _) h.symm
    have := ih (fun v hv => hws v (List.mem_cons_of_mem _ hv)) (AddRateLimitCookie w.1 w.2 p)
    simp only [addAll, List.foldl_cons] at this ⊢
    rw [this, add_lookup_other p w.1 c w.2 hw]

theorem isRateLimited_add_self (p : Pkg) (c : String) (e q : Time) :
    IsRateLimited (AddRateLimitCookie c e p) q c = decide (q < e) := by
  unfold IsRateLimited
  rw [add_lookup_self]

theorem isRateLimited_add_other (p : Pkg) (c k : String) (e q : Time) (h : k ≠ c) :
    IsRateLimited (AddRateLimitCookie c e p) q k = IsRateLimited p q k :=
  isRateLimited_congr _ _ q k (add_lookup_other p c k e h)

/-! ## Lemmas on the construction of a view -/

theorem isRateLimited_eq_limited (p : Pkg) (now : Time) (k : String) :
    IsRateLimited p now k = p.rateLimitCookies.limited now k := rfl

/-- Deleting an entry that has expired at `now` changes no answer at `now`
or later. -/
theorem limited_delete_expired (R : Registry) (now q : Time) (c : String) (e : RateLimitCookie)
    (hc : R c = some e) (hexp : ¬ now < e.ExpirationTime) (hq : now ≤ q) (k : String) :
    (R.Delete c).limited q k = R.limited q k := by
  unfold Registry.limited Registry.Delete
  by_cases hk : k = c
  · subst hk
    simp only [if_true, hc]
    symm
    simp only [decide_eq_false_iff_not]
    exact fun h => hexp (lt_of_le_of_lt hq h)
  · simp [hk]

/-- The members selected by the loop of `NewCookieManager`: the trimmed
values that are non-empty and not rate-limited at `now`, after what was
already selected. -/
theorem loop_snd (now : Time) : ∀ (S : List String) (R : Registry) (valid : List String),
    (NewCookieManager.loop now S R valid).2 =
      valid ++ (S.map TrimSpace).filter (fun c => decide (c ≠ "") && !R.limited now c) := by
  intro S
  induction S with
  | nil => intro R valid; simp [NewCookieManager.loop]
  | cons s S ih =>
    intro R valid
    simp only [NewCookieManager.loop, List.map_cons]
    by_cases hs : TrimSpace s = ""
    · rw [if_pos hs, ih]
      simp [List.filter_cons, hs]
    · rw [if_neg hs]
      cases hR : R (TrimSpace s) with
      | none =>
        simp only []
        rw [ih]
        simp [List.filter_cons, hs, Registry.limited, hR]
      | some e =>
        simp only []
        by_cases hlt : now < e.ExpirationTime
        · rw [if_pos hlt, ih]
          simp [List.filter_cons, hs, Registry.limited, hR, hlt]
        · rw [if_neg hlt, ih]
          have hfun : (fun c => decide (c ≠ "") && !(R.Delete (TrimSpace s)).limited now c) =
              (fun c => decide (c ≠ "") && !R.limited now c) := by
            funext k
            rw [limited_delete_expired R now now (TrimSpace s) e hR hlt (le_refl _) k]
          rw [hfun]
          simp [List.filter_cons, hs, Registry.limited, hR, hlt]

/-- The registry left by the loop answers every query at `now` or later as
the registry it started from. -/
theorem loop_fst_limited (now q : Time) (hq : now ≤ q) (k : String) :
    ∀ (S : List String) (R : Registry) (valid : List String),
      (NewCookieManager.loop now S R valid).1.limited q k = R.limited q k := by
  intro S
  induction S with
  | nil => intro R valid; simp [NewCookieManager.loop]
  | cons s S ih =>
    intro R valid
    simp only [NewCookieManager.loop]
    by_cases hs : TrimSpace s = ""
    · rw [if_pos hs, ih]
    · rw [if_neg hs]
      cases hR : R (TrimSpace s) with
      | none => simp only []; rw [ih]
      | some e =>
        simp only []
        by_cases hlt : now < e.ExpirationTime
        · rw [if_pos hlt, ih]
        · rw [if_neg hlt, ih, limited_delete_expired R now q (TrimSpace s) e hR hlt hq k]

theorem newCookieManager_cookies (p : Pkg) (now : Time) :
    (NewCookieManager p now).2.Cookies =
      (p.SGCookies.map TrimSpace).filter
        (fun c => decide (c ≠ "") && !IsRateLimited p now c) := by
  simp only [NewCookieManager, GetSGCookies, loop_snd, List.nil_append]
  rfl

theorem newCookieManager_SGCookies (p : Pkg) (now : Time) :
    (NewCookieManager p now).1.SGCookies = p.SGCookies := rfl

theorem newCookieManager_isRateLimited (p : Pkg) (now q : Time) (hq : now ≤ q) (k : String) :
    IsRateLimited (NewCookieManager p now).1 q k = IsRateLimited p q k := by
  simp only [isRateLimited_eq_limited, NewCookieManager]
  exact loop_fst_limited now q hq k _ _ _

/-- On a credential set whose values are already trimmed and non-empty the
view is the set filtered by `IsRateLimited`. -/
theorem newCookieManager_clean (p : Pkg) (now : Time)
    (hclean : ∀ s ∈ p.SGCookies, TrimSpace s = s ∧ s ≠ "") :
    (NewCookieManager p now).2.Cookies =
      p.SGCookies.filter (fun v => !IsRateLimited p now v) := by
  rw [newCookieManager_cookies]
  have hmap : p.SGCookies.map TrimSpace = p.SGCookies := by
    conv_rhs => rw [← List.map_id p.SGCookies]
    exact List.map_congr_left (fun s hs => (hclean s hs).1)
  rw [hmap]
  apply List.filter_congr
  intro s hs
  simp [(hclean s hs).2]

/-! ## Lemmas on the selector -/

theorem getNextCookie_empty (cm : CookieManager) (h : cm.Cookies.length = 0) :
    cm.GetNextCookie = (cm, "", some "no cookies available") := by
  unfold CookieManager.GetNextCookie
  rw [dif_pos h]

theorem getNextCookie_pos (cm : CookieManager) (h : 0 < cm.Cookies.length) :
    cm.GetNextCookie.1 =
        { Cookies := cm.Cookies,
          currentIndex := (cm.currentIndex + 1) % cm.Cookies.length } ∧
    cm.Cookies[(cm.currentIndex + 1) % cm.Cookies.length]? = some cm.GetNextCookie.2.1 ∧
    cm.GetNextCookie.2.2 = none := by
  have hne : ¬ cm.Cookies.length = 0 := Nat.pos_iff_ne_zero.mp h
  unfold CookieManager.GetNextCookie
  rw [dif_neg hne]
  refine ⟨rfl, ?_, rfl⟩
  simp only [List.get_eq_getElem]
  exact List.getElem?_eq_getElem _

theorem nextResults_length : ∀ (m : Nat) (cm : CookieManager), (nextResults m cm).length = m := by
  intro m
  induction m with
  | zero => intro cm; rfl
  | succ m ih => intro cm; simp [nextResults, ih]

/-- The `j`-th of `m` consecutive calls (counting from 0) returns, without
error, the member at index `(currentIndex + 1 + j) mod len`. -/
theorem nextResults_getElem? : ∀ (m : Nat) (cm : CookieManager), 0 < cm.Cookies.length →
    ∀ j, j < m →
      (nextResults m cm)[j]? =
        (cm.Cookies[(cm.currentIndex + 1 + j) % cm.Cookies.length]?).map (fun s => (s, none)) := by
  intro m
  induction m with
  | zero => intro cm _ j hj; exact absurd hj (Nat.not_lt_zero j)
  | succ m ih =>
    intro cm hpos j hj
    obtain ⟨h1, h2, h3⟩ := getNextCookie_pos cm hpos
    cases j with
    | zero =>
      simp only [nextResults, List.getElem?_cons_zero, Nat.add_zero]
      rw [h2, h3]
      rfl
    | succ j =>
      simp only [nextResults, List.getElem?_cons_succ]
      have hpos1 : 0 < cm.GetNextCookie.1.Cookies.length := by rw [h1]; exact hpos
      rw [ih cm.GetNextCookie.1 hpos1 j (Nat.lt_of_succ_lt_succ hj), h1]
      simp only []
      have hidx : ((cm.currentIndex + 1) % cm.Cookies.length + 1 + j) % cm.Cookies.length =
          (cm.currentIndex + 1 + (j + 1)) % cm.Cookies.length := by
        rw [Nat.add_assoc, Nat.mod_add_mod, Nat.add_comm 1 j]
      rw [hidx]

/-- The strings returned by `len` consecutive calls on a fresh view are the
members rotated by one place. -/
theorem nextResults_fresh (L : List String) (h : 0 < L.length) :
    (nextResults L.length { Cookies := L, currentIndex := 0 }).map Prod.fst = L.rotate 1 := by
  apply List.ext_getElem?
  intro j
  by_cases hj : j < L.length
  · rw [List.getElem?_map, nextResults_getElem? L.length ⟨L, 0⟩ h j hj,
      List.getElem?_rotate hj]
    simp only [Nat.zero_add, Option.map_map]
    rw [Nat.add_comm 1 j]
    cases L[(j + 1) % L.length]? <;> rfl
  · have h1 : ((nextResults L.length { Cookies := L, currentIndex := 0 }).map Prod.fst).length
        ≤ j := by
      rw [List.length_map, nextResults_length]; exact Nat.le_of_not_lt hj
    have h2 : (L.rotate 1).length ≤ j := by
      rw [List.length_rotate]; exact Nat.le_of_not_lt hj
    rw [List.getElem?_eq_none h1, List.getElem?_eq_none h2]

/-- With nothing to trim and nothing rate-limited the view is the whole
set with the cursor at 0. -/
theorem newCookieManager_all (p : Pkg) (now : Time)
    (hclean : ∀ s ∈ GetSGCookies p, TrimSpace s = s ∧ s ≠ "")
    (hfree : ∀ c ∈ GetSGCookies p, IsRateLimited p now c = false) :
    (NewCookieManager p now).2 = { Cookies := GetSGCookies p, currentIndex := 0 } := by
  have hc : (NewCookieManager p now).2.Cookies = GetSGCookies p := by
    rw [newCookieManager_clean p now hclean]
    apply List.filter_eq_self.mpr
    intro v hv
    rw [hfree v hv]
    rfl
  have hi : (NewCookieManager p now).2.currentIndex = 0 := rfl
  cases hcm : (NewCookieManager p now).2 with
  | mk cs i =>
    rw [hcm] at hc hi
    simp only at hc hi
    rw [hc, hi]

theorem find_none (c : String) : ∀ (L : List String) (i : Nat),
    CookieManager.RemoveCookie.find c L i = none ↔ c ∉ L := by
  intro L
  induction L with
  | nil => intro i; simp [CookieManager.RemoveCookie.find]
  | cons a L ih =>
    intro i
    simp only [CookieManager.RemoveCookie.find]
    by_cases h : a = c
    · simp [h]
    · rw [if_neg h, ih (i + 1)]
      simp [Ne.symm h]

/-- The index found by the search loop is that of the first occurrence:
cutting it out is `List.erase`. -/
theorem find_some (c : String) : ∀ (L : List String) (i k : Nat),
    CookieManager.RemoveCookie.find c L i = some k →
      i ≤ k ∧ L.take (k - i) ++ L.drop (k - i + 1) = L.erase c := by
  intro L
  induction L with
  | nil => intro i k h; simp [CookieManager.RemoveCookie.find] at h
  | cons a L ih =>
    intro i k h
    simp only [CookieManager.RemoveCookie.find] at h
    by_cases hac : a = c
    · rw [if_pos hac] at h
      cases h
      subst hac
      simp
    · rw [if_neg hac] at h
      obtain ⟨hle, heq⟩ := ih (i + 1) k h
      refine ⟨by omega, ?_⟩
      have hk : k - i = (k - (i + 1)) + 1 := by omega
      rw [hk, List.erase_cons_tail (by simpa using hac)]
      simp only [List.take_succ_cons, List.drop_succ_cons, List.cons_append]
      rw [heq]

theorem cm_removeCookie_empty (cm : CookieManager) (c : String) (h : cm.Cookies = []) :
    cm.RemoveCookie c = (cm, some "no cookies available") := by
  unfold CookieManager.RemoveCookie
  rw [if_pos (by rw [h]; rfl)]

theorem cm_removeCookie_not_mem (cm : CookieManager) (c : String) (hne : cm.Cookies ≠ [])
    (hc : c ∉ cm.Cookies) :
    cm.RemoveCookie c = (cm, some "RemoveCookie -> cookie not found") := by
  unfold CookieManager.RemoveCookie
  rw [if_neg (by simpa using hne), (find_none c cm.Cookies 0).2 hc]

theorem cm_removeCookie_mem (cm : CookieManager) (c : String) (hc : c ∈ cm.Cookies) :
    cm.RemoveCookie c =
      ({ Cookies := cm.Cookies.erase c,
         currentIndex :=
           if cm.currentIndex ≥ (cm.Cookies.erase c).length then 0 else cm.currentIndex },
       none) := by
  have hne : ¬ cm.Cookies.length = 0 := by
    intro h0
    rw [List.length_eq_zero] at h0
    rw [h0] at hc
    cases hc
  unfold CookieManager.RemoveCookie
  rw [if_neg hne]
  cases hf : CookieManager.RemoveCookie.find c cm.Cookies 0 with
  | none => exact absurd hc ((find_none c cm.Cookies 0).1 hf)
  | some k =>
    have he := (find_some c cm.Cookies 0 k hf).2
    simp only [Nat.sub_zero] at he
    simp only [he]
    split <;> rfl

theorem removeCookie_loop_eq (c : String) : ∀ (S acc : List String),
    RemoveCookie.loop c S acc = acc ++ S.filter (fun s => decide (s ≠ c)) := by
  intro S
  induction S with
  | nil => intro acc; simp [RemoveCookie.loop]
  | cons a S ih =>
    intro acc
    simp only [RemoveCookie.loop]
    by_cases h : a = c
    · simp [h, ih]
    · simp [h, ih]

theorem removeCookie_SGCookies (c : String) (p : Pkg) :
    GetSGCookies (RemoveCookie c p) = (GetSGCookies p).filter (fun s => decide (s ≠ c)) := by
  simp [RemoveCookie, GetSGCookies, removeCookie_loop_eq]

theorem mem_newCookieManager (p : Pkg) (now : Time) (c : String) :
    c ∈ (NewCookieManager p now).2.Cookies ↔
      (∃ s ∈ GetSGCookies p, TrimSpace s = c) ∧ c ≠ "" ∧ IsRateLimited p now c = false := by
  rw [newCookieManager_cookies]
  simp [GetSGCookies, List.mem_filter]

/-! ## Lemmas on white space, on the initial set and on the purge -/

theorem initSGCookies_loop_eq : ∀ (fields acc : List String),
    InitSGCookies.loop fields acc = acc ++ fields := by
  intro fields
  induction fields with
  | nil => intro acc; simp [InitSGCookies.loop]
  | cons f fields ih => intro acc; simp [InitSGCookies.loop, ih]

theorem initSGCookies_empty (p : Pkg) : GetSGCookies (InitSGCookies "" p) = [] := by
  simp [InitSGCookies, GetSGCookies]

theorem initSGCookies_fields (cookieStr : String) (p : Pkg) (h : cookieStr ≠ "") :
    GetSGCookies (InitSGCookies cookieStr p) = Split cookieStr := by
  simp [InitSGCookies, GetSGCookies, h, initSGCookies_loop_eq]

theorem initSGCookies_registry (cookieStr : String) (p : Pkg) :
    (InitSGCookies cookieStr p).rateLimitCookies = p.rateLimitCookies := by
  unfold InitSGCookies
  split <;> rfl

/-- An entry of the registry left by the loop is the entry the loop started
from, unless that entry had expired at `now` and was deleted. -/
theorem loop_fst_cases (now : Time) (k : String) :
    ∀ (S : List String) (R : Registry) (valid : List String),
      (NewCookieManager.loop now S R valid).1 k = R k ∨
      ((NewCookieManager.loop now S R valid).1 k = none ∧
        ∃ e, R k = some e ∧ e.ExpirationTime ≤ now) := by
  intro S
  induction S with
  | nil => intro R valid; left; rfl
  | cons s S ih =>
    intro R valid
    simp only [NewCookieManager.loop]
    by_cases hs : TrimSpace s = ""
    · rw [if_pos hs]; exact ih R valid
    · rw [if_neg hs]
      cases hR : R (TrimSpace s) with
      | none => simp only []; exact ih R _
      | some e =>
        simp only []
        by_cases hlt : now < e.ExpirationTime
        · rw [if_pos hlt]; exact ih R valid
        · rw [if_neg hlt]
          have hexp : e.ExpirationTime ≤ now := not_lt.mp hlt
          by_cases hk : k = TrimSpace s
          · right
            subst hk
            rcases ih (R.Delete (TrimSpace s)) (valid ++ [TrimSpace s]) with h | ⟨h, _⟩
            · exact ⟨by rw [h]; simp [Registry.Delete], e, hR, hexp⟩
            · exact ⟨h, e, hR, hexp⟩
          · have hdel : (R.Delete (TrimSpace s)) k = R k := by simp [Registry.Delete, hk]
            rcases ih (R.Delete (TrimSpace s)) (valid ++ [TrimSpace s]) with h | ⟨h, e1, he1, hle⟩
            · left; rw [h, hdel]
            · right; exact ⟨h, e1, by rw [← hdel]; exact he1, hle⟩

/-! ## Lemmas on the cursor -/

theorem cursorInv_build (p : Pkg) (now : Time) : cursorInv (NewCookieManager p now).2 := by
  have hi : (NewCookieManager p now).2.currentIndex = 0 := rfl
  unfold cursorInv
  rw [hi]
  cases hL : (NewCookieManager p now).2.Cookies with
  | nil => left; exact ⟨rfl, rfl⟩
  | cons a L => right; simp

theorem cursorInv_next (cm : CookieManager) (h : cursorInv cm) :
    cursorInv cm.GetNextCookie.1 := by
  by_cases h0 : cm.Cookies.length = 0
  · rw [getNextCookie_empty cm h0]; exact h
  · have hpos : 0 < cm.Cookies.length := Nat.pos_of_ne_zero h0
    rw [(getNextCookie_pos cm hpos).1]
    right
    exact Nat.mod_lt _ hpos

theorem getRandomCookie_empty (cm : CookieManager) (r : Nat) (h : cm.Cookies.length = 0) :
    cm.GetRandomCookie r = some (cm, "", some "no cookies available") := by
  unfold CookieManager.GetRandomCookie
  rw [if_pos h]

theorem getRandomCookie_lt (cm : CookieManager) (r : Nat) (hr : r < cm.Cookies.length) :
    cm.GetRandomCookie r =
      some ({ Cookies := cm.Cookies, currentIndex := r }, cm.Cookies[r], none) := by
  unfold CookieManager.GetRandomCookie
  rw [if_neg (by omega), List.getElem?_eq_getElem hr]

theorem getRandomCookie_ge (cm : CookieManager) (r : Nat) (h0 : cm.Cookies.length ≠ 0)
    (hr : cm.Cookies.length ≤ r) : cm.GetRandomCookie r = none := by
  unfold CookieManager.GetRandomCookie
  rw [if_neg h0, List.getElem?_eq_none hr]

theorem cursorInv_random (cm st : CookieManager) (r : Nat) (res : String × Option String)
    (h : cursorInv cm) (hres : cm.GetRandomCookie r = some (st, res)) : cursorInv st := by
  by_cases h0 : cm.Cookies.length = 0
  · rw [getRandomCookie_empty cm r h0] at hres
    cases hres
    exact h
  · by_cases hr : r < cm.Cookies.length
    · rw [getRandomCookie_lt cm r hr] at hres
      cases hres
      right
      exact hr
    · rw [getRandomCookie_ge cm r h0 (Nat.le_of_not_lt hr)] at hres
      cases hres

theorem cursorInv_remove (cm : CookieManager) (c : String) (h : cursorInv cm) :
    cursorInv (cm.RemoveCookie c).1 := by
  by_cases hc : c ∈ cm.Cookies
  · rw [cm_removeCookie_mem cm c hc]
    unfold cursorInv
    simp only []
    by_cases hge : cm.currentIndex ≥ (cm.Cookies.erase c).length
    · rw [if_pos hge]
      cases hE : cm.Cookies.erase c with
      | nil => left; exact ⟨rfl, rfl⟩
      | cons a L => right; simp
    · rw [if_neg hge]
      right
      exact Nat.lt_of_not_ge hge
  · by_cases hne : cm.Cookies = []
    · rw [cm_removeCookie_empty cm c hne]; exact h
    · rw [cm_removeCookie_not_mem cm c hne hc]; exact h

theorem cursorInv_reachable (cm : CookieManager) (h : Reachable cm) : cursorInv cm := by
  induction h with
  | build p now => exact cursorInv_build p now
  | next cm _ ih => exact cursorInv_next cm ih
  | random cm st r res _ hres ih => exact cursorInv_random cm st r res ih hres
  | remove cm c _ ih => exact cursorInv_remove cm c ih

/-! ## Lemmas on the package-level removal -/

theorem filter_ne_length (c : String) : ∀ S : List String,
    (S.filter (fun s => decide (s ≠ c))).length + S.count c = S.length := by
  intro S
  induction S with
  | nil => rfl
  | cons a S ih =>
    by_cases h : a = c
    · subst h
      have hf : (a :: S).filter (fun s => decide (s ≠ a)) =
          S.filter (fun s => decide (s ≠ a)) := by
        simp [List.filter_cons]
      rw [hf, List.count_cons_self, List.length_cons]
      omega
    · have hf : (a :: S).filter (fun s => decide (s ≠ c)) =
          a :: S.filter (fun s => decide (s ≠ c)) := by
        simp [List.filter_cons, h]
      rw [hf, List.count_cons_of_ne (Ne.symm h), List.length_cons, List.length_cons]
      omega

theorem filter_ne_of_not_mem (c : String) (S : List String) (h : c ∉ S) :
    S.filter (fun s => decide (s ≠ c)) = S := by
  apply List.filter_eq_self.mpr
  intro a ha
  have : a ≠ c := fun hac => h (hac ▸ ha)
  simpa using this

theorem filter_ne_of_count_one (c : String) : ∀ S : List String, S.count c = 1 →
    S.filter (fun s => decide (s ≠ c)) = S.erase c := by
  intro S
  induction S with
  | nil => intro h; simp at h
  | cons a S ih =>
    intro h
    by_cases hac : a = c
    · subst hac
      rw [List.count_cons_self] at h
      have h0 : S.count a = 0 := by omega
      have hnot : a ∉ S := List.count_eq_zero.mp h0
      rw [List.erase_cons_head]
      simp only [List.filter_cons, ne_eq, not_true_eq_false, decide_False]
      exact filter_ne_of_not_mem a S hnot
    · have hne : (a == c) = false := by simpa using hac
      rw [List.count_cons, hne] at h
      simp only [Bool.false_eq_true, if_false, Nat.add_zero] at h
      rw [List.erase_cons_tail (by simpa using hac)]
      simp only [List.filter_cons, ne_eq, hac, not_false_eq_true, decide_True, if_true]
      rw [← ih h]

/-! ## Lemmas on slices and backing arrays -/

theorem array_append_old (h : Heap) (A : List String) (a : Nat) (ha : a < h.length) :
    Heap.array (h ++ [A]) (some a) = Heap.array h (some a) := by
  simp only [Heap.array]
  rw [List.getElem?_append_left ha]

theorem array_append_new (h : Heap) (A : List String) :
    Heap.array (h ++ [A]) (some h.length) = A := by
  simp only [Heap.array]
  rw [List.getElem?_concat_length]
  rfl

theorem array_set_ne (h : Heap) (A : List String) (a b : Nat) (hab : b ≠ a) :
    Heap.array (h.set b A) (some a) = Heap.array h (some a) := by
  simp only [Heap.array]
  rw [List.getElem?_set_ne hab]

theorem array_set_self (h : Heap) (A : List String) (b : Nat) (hb : b < h.length) :
    Heap.array (h.set b A) (some b) = A := by
  simp only [Heap.array]
  rw [List.getElem?_set_self hb]
  rfl

/-- Two heaps that hold the same arrays below `base` give the same elements
to a slice whose array lies below `base`. -/
theorem elems_congr (h h' : Heap) (s : Slice) (base : Nat)
    (hs : ∀ a, s.arr = some a → a < base)
    (hsame : ∀ a, a < base → Heap.array h' (some a) = Heap.array h (some a)) :
    Heap.elems h' s = Heap.elems h s := by
  unfold Heap.elems
  cases hsa : s.arr with
  | none => rfl
  | some a => rw [hsame a (hs a hsa)]

theorem elems_length (h : Heap) (s : Slice) (hwf : Heap.wf h s) :
    (Heap.elems h s).length = s.len := by
  unfold Heap.elems
  rw [List.length_take]
  exact Nat.min_eq_left hwf.1

theorem getSGCookies_spec (m : Mem) (hwf : Heap.wf m.heap m.SGCookies) :
    m.GetSGCookies.1.heap.elems m.GetSGCookies.2 = m.heap.elems m.SGCookies ∧
    m.GetSGCookies.1.heap.length = m.heap.length + 1 ∧
    m.GetSGCookies.2 = { arr := some m.heap.length, len := m.SGCookies.len } ∧
    m.GetSGCookies.1.SGCookies = m.SGCookies ∧
    (∀ a, a < m.heap.length →
      m.GetSGCookies.1.heap.array (some a) = m.heap.array (some a)) := by
  have hlen := elems_length m.heap m.SGCookies hwf
  have hsrc : Heap.elems (m.heap ++ [List.replicate m.SGCookies.len ""]) m.SGCookies =
      m.heap.elems m.SGCookies :=
    elems_congr m.heap _ m.SGCookies m.heap.length hwf.2
      (fun a ha => array_append_old m.heap _ a ha)
  have hheap : m.GetSGCookies.1.heap =
      (m.heap ++ [List.replicate m.SGCookies.len ""]).set m.heap.length
        (m.heap.elems m.SGCookies) := by
    simp only [Mem.GetSGCookies, Heap.make, Heap.copy, Nat.min_self]
    rw [hsrc, array_append_new, List.drop_replicate, Nat.sub_self, List.replicate_zero,
      List.append_nil, List.take_of_length_le (Nat.le_of_eq hlen)]
  have hslice : m.GetSGCookies.2 = { arr := some m.heap.length, len := m.SGCookies.len } := rfl
  have hlt : m.heap.length < (m.heap ++ [List.replicate m.SGCookies.len ""]).length := by
    simp
  refine ⟨?_, ?_, hslice, rfl, ?_⟩
  · rw [hheap, hslice]
    unfold Heap.elems
    simp only []
    rw [array_set_self _ _ _ hlt]
    exact List.take_of_length_le (Nat.le_of_eq (by
      unfold Heap.elems at hlen; exact hlen))
  · rw [hheap]; simp
  · intro a ha
    rw [hheap, array_set_ne _ _ _ _ (Nat.ne_of_gt ha), array_append_old _ _ _ ha]

theorem take_succ_append_cons (E rest : List String) (x : String) (n : Nat)
    (hn : E.length = n) : (E ++ x :: rest).take (n + 1) = E ++ [x] := by
  subst hn
  induction E with
  | nil => simp
  | cons e E ih => simpa using ih

theorem take_succ_set (A : List String) (x : String) (n : Nat) (hn : n < A.length) :
    (A.set n x).take (n + 1) = A.take n ++ [x] := by
  induction A generalizing n with
  | nil => simp at hn
  | cons a A ih =>
    cases n with
    | zero => simp
    | succ n =>
      simp only [List.set_cons_succ, List.take_succ_cons, List.cons_append]
      rw [ih n (by simpa using hn)]

theorem append_spec (grow : Nat → Nat) (h : Heap) (s : Slice) (x : String) (base : Nat)
    (hwf : Heap.wf h s) (hfresh : ∀ a, s.arr = some a → base ≤ a) (hbase : base ≤ h.length) :
    (h.append grow s x).1.elems (h.append grow s x).2 = h.elems s ++ [x] ∧
    Heap.wf (h.append grow s x).1 (h.append grow s x).2 ∧
    (∀ a, (h.append grow s x).2.arr = some a → base ≤ a) ∧
    h.length ≤ (h.append grow s x).1.length ∧
    (∀ a, a < base → (h.append grow s x).1.array (some a) = h.array (some a)) := by
  have hlen := elems_length h s hwf
  have hgrown : (h.grown grow s x).1.elems (h.grown grow s x).2 = h.elems s ++ [x] ∧
      Heap.wf (h.grown grow s x).1 (h.grown grow s x).2 ∧
      (∀ a, (h.grown grow s x).2.arr = some a → base ≤ a) ∧
      h.length ≤ (h.grown grow s x).1.length ∧
      (∀ a, a < base → (h.grown grow s x).1.array (some a) = h.array (some a)) := by
    simp only [Heap.grown]
    refine ⟨?_, ⟨?_, ?_⟩, ?_, ?_, ?_⟩
    · unfold Heap.elems
      simp only []
      rw [array_append_new]
      exact take_succ_append_cons _ _ x s.len hlen
    · simp only []
      rw [array_append_new, List.length_append, List.length_cons, hlen]
      omega
    · intro a ha
      simp only [Option.some.injEq] at ha
      subst ha
      simp
    · intro a ha
      simp only [Option.some.injEq] at ha
      subst ha
      exact hbase
    · simp
    · intro a ha
      exact array_append_old h _ a (Nat.lt_of_lt_of_le ha hbase)
  cases hsa : s.arr with
  | none =>
    have happ : h.append grow s x = h.grown grow s x := by
      unfold Heap.append
      rw [hsa]
    rw [happ]
    exact hgrown
  | some a =>
    by_cases hcap : s.len < (h.array s.arr).length
    · have happ : h.append grow s x =
          (h.set a ((h.array (some a)).set s.len x), { arr := some a, len := s.len + 1 }) := by
        unfold Heap.append
        rw [hsa] at hcap ⊢
        simp only []
        rw [if_pos hcap]
      have ha : a < h.length := hwf.2 a hsa
      rw [hsa] at hcap
      rw [happ]
      refine ⟨?_, ⟨?_, ?_⟩, ?_, ?_, ?_⟩
      · unfold Heap.elems
        simp only []
        rw [array_set_self _ _ _ ha, hsa]
        exact take_succ_set _ x s.len hcap
      · simp only []
        rw [array_set_self _ _ _ ha, List.length_set]
        exact hcap
      · intro a' ha'
        simp only [Option.some.injEq] at ha'
        subst ha'
        simpa using ha
      · intro a' ha'
        simp only [Option.some.injEq] at ha'
        subst ha'
        exact hfresh _ hsa
      · simp
      · intro a' ha'
        have hle : base ≤ a := hfresh a hsa
        exact array_set_ne h _ a' a (by omega)
    · have happ : h.append grow s x = h.grown grow s x := by
        unfold Heap.append
        rw [hsa] at hcap ⊢
        simp only []
        rw [if_neg hcap]
      rw [happ]
      exact hgrown

theorem mem_removeCookie_loop_spec (grow : Nat → Nat) (c : String) (rng : Slice) (base : Nat)
    (hrng : ∀ a, rng.arr = some a → a < base) :
    ∀ (n i : Nat) (h : Heap) (nc : Slice), base ≤ h.length → Heap.wf h nc →
      (∀ a, nc.arr = some a → base ≤ a) → i + n = (h.elems rng).length →
      (Mem.RemoveCookie.loop grow c rng n i h nc).1.elems
          (Mem.RemoveCookie.loop grow c rng n i h nc).2 =
        h.elems nc ++ ((h.elems rng).drop i).filter (fun s => decide (s ≠ c)) ∧
      Heap.wf (Mem.RemoveCookie.loop grow c rng n i h nc).1
        (Mem.RemoveCookie.loop grow c rng n i h nc).2 ∧
      (∀ a, a < base →
        (Mem.RemoveCookie.loop grow c rng n i h nc).1.array (some a) = h.array (some a)) := by
  intro n
  induction n with
  | zero =>
    intro i h nc _ hwf _ hin
    have hloop : Mem.RemoveCookie.loop grow c rng 0 i h nc = (h, nc) := rfl
    rw [hloop]
    refine ⟨?_, hwf, fun a _ => rfl⟩
    rw [List.drop_of_length_le (by omega)]
    simp
  | succ n ih =>
    intro i h nc hbase hwf hfresh hin
    have hi : i < (h.elems rng).length := by omega
    have hget : (h.elems rng)[i]? = some ((h.elems rng)[i]) := List.getElem?_eq_getElem hi
    have hdrop : (h.elems rng).drop i = (h.elems rng)[i] :: (h.elems rng).drop (i + 1) :=
      List.drop_eq_getElem_cons hi
    simp only [Mem.RemoveCookie.loop]
    rw [hget, Option.getD_some]
    by_cases hne : (h.elems rng)[i] ≠ c
    · rw [if_pos hne]
      obtain ⟨h1, h2, h3, h4, h5⟩ :=
        append_spec grow h nc ((h.elems rng)[i]) base hwf hfresh hbase
      have hE : (h.append grow nc ((h.elems rng)[i])).1.elems rng = h.elems rng :=
        elems_congr h _ rng base hrng h5
      obtain ⟨k1, k2, k3⟩ := ih (i + 1) _ _ (Nat.le_trans hbase h4) h2 h3
        (by rw [hE]; omega)
      refine ⟨?_, k2, fun a ha => (k3 a ha).trans (h5 a ha)⟩
      rw [k1, h1, hE, hdrop, List.filter_cons, if_pos (by simpa using hne), List.append_assoc]
      rfl
    · rw [if_neg hne]
      obtain ⟨k1, k2, k3⟩ := ih (i + 1) h nc hbase hwf hfresh (by omega)
      refine ⟨?_, k2, k3⟩
      have hc : (h.elems rng)[i] = c := not_not.mp hne
      rw [k1, hdrop, List.filter_cons, if_neg (by simp [hc])]

theorem wf_nil (h : Heap) : Heap.wf h { arr := none, len := 0 } :=
  ⟨Nat.zero_le _, fun a ha => by cases ha⟩

/-- The heap-level `RemoveCookie`: the new `SGCookies` holds the elements
of the old one other than `c`, in order, and no array that existed before
the call is written. -/
theorem mem_removeCookie_spec (grow : Nat → Nat) (c : String) (m : Mem)
    (hwf : Heap.wf m.heap m.SGCookies) :
    (Mem.RemoveCookie grow c m).heap.elems (Mem.RemoveCookie grow c m).SGCookies =
      (m.heap.elems m.SGCookies).filter (fun s => decide (s ≠ c)) ∧
    Heap.wf (Mem.RemoveCookie grow c m).heap (Mem.RemoveCookie grow c m).SGCookies ∧
    (∀ a, a < m.heap.length →
      (Mem.RemoveCookie grow c m).heap.array (some a) = m.heap.array (some a)) := by
  obtain ⟨g1, g2, g3, _, g5⟩ := getSGCookies_spec m hwf
  have hrng : ∀ a, m.GetSGCookies.2.arr = some a → a < m.heap.length + 1 := by
    intro a ha
    rw [g3] at ha
    simp only [Option.some.injEq] at ha
    omega
  have hlen : (m.GetSGCookies.1.heap.elems m.GetSGCookies.2).length = m.GetSGCookies.2.len := by
    rw [g1, elems_length m.heap m.SGCookies hwf, g3]
  obtain ⟨k1, k2, k3⟩ := mem_removeCookie_loop_spec grow c m.GetSGCookies.2
    (m.heap.length + 1) hrng m.GetSGCookies.2.len 0 m.GetSGCookies.1.heap
    { arr := none, len := 0 } (Nat.le_of_eq g2.symm) (wf_nil _)
    (fun a ha => by cases ha) (by rw [hlen]; omega)
  refine ⟨?_, k2, ?_⟩
  · have hH : (Mem.RemoveCookie grow c m).heap =
        (Mem.RemoveCookie.loop grow c m.GetSGCookies.2 m.GetSGCookies.2.len 0
          m.GetSGCookies.1.heap { arr := none, len := 0 }).1 := rfl
    have hS : (Mem.RemoveCookie grow c m).SGCookies =
        (Mem.RemoveCookie.loop grow c m.GetSGCookies.2 m.GetSGCookies.2.len 0
          m.GetSGCookies.1.heap { arr := none, len := 0 }).2 := rfl
    rw [hH, hS, k1, g1]
    simp [Heap.elems, Heap.array]
  · intro a ha
    exact (k3 a (by omega)).trans (g5 a ha)

theorem getSGCookies_wf (m : Mem) (hwf : Heap.wf m.heap m.SGCookies) :
    Heap.wf m.GetSGCookies.1.heap m.GetSGCookies.1.SGCookies ∧
    m.GetSGCookies.1.heap.elems m.GetSGCookies.1.SGCookies = m.heap.elems m.SGCookies := by
  obtain ⟨_, g2, _, g4, g5⟩ := getSGCookies_spec m hwf
  rw [g4]
  refine ⟨⟨?_, ?_⟩, elems_congr m.heap _ m.SGCookies m.heap.length hwf.2 g5⟩
  · have h1 := hwf.1
    cases hsa : m.SGCookies.arr with
    | none => rw [hsa] at h1; exact h1
    | some a =>
      rw [hsa] at h1
      rw [g5 a (hwf.2 a hsa)]
      exact h1
  · intro a ha
    rw [g2]
    exact Nat.lt_succ_of_lt (hwf.2 a ha)

/-! ## Claims on the construction of a view and on the registry -/

/-- C2: `IsRateLimited(k)` at time `q` is true iff the registry holds an
entry for `k` whose expiration is strictly after `q`; after
`AddRateLimitCookie(c, t+d)` (for every `d`, in particular `d ≥ 0`), followed
by any writes `ws` to other credentials, `IsRateLimited(c)` is true at every `q` with
`t ≤ q < t+d` and false at every `q ≥ t+d`; a credential without an entry
is never reported as rate-limited. -/
theorem C2_isRateLimited_window (p : Pkg) (c : String) (t d : Time)
    (ws : List (String × Time)) (hws : ∀ w ∈ ws, w.1 ≠ c) :
    (∀ (p0 : Pkg) (q : Time) (k : String), IsRateLimited p0 q k = true ↔
        ∃ e, p0.rateLimitCookies k = some e ∧ q < e.ExpirationTime) ∧
    (∀ q : Time, t ≤ q → q < t + d →
        IsRateLimited (addAll ws (AddRateLimitCookie c (t + d) p)) q c = true) ∧
    (∀ q : Time, t + d ≤ q →
        IsRateLimited (addAll ws (AddRateLimitCookie c (t + d) p)) q c = false) ∧
    (∀ (p0 : Pkg) (q : Time) (k : String), p0.rateLimitCookies k = none →
        IsRateLimited p0 q k = false) := by
  have hlook : (addAll ws (AddRateLimitCookie c (t + d) p)).rateLimitCookies c =
      (AddRateLimitCookie c (t + d) p).rateLimitCookies c := addAll_lookup ws c hws _
  have heq : ∀ q, IsRateLimited (addAll ws (AddRateLimitCookie c (t + d) p)) q c =
      decide (q < t + d) := by
    intro q
    rw [isRateLimited_congr _ _ q c hlook, isRateLimited_add_self]
  refine ⟨isRateLimited_iff, ?_, ?_, isRateLimited_none⟩
  · intro q _ hq
    rw [heq q]
    exact decide_eq_true hq
  · intro q hq
    rw [heq q]
    exact decide_eq_false (not_lt.mpr hq)

/-- C2 at `c = "a"`, `t = 100`, `d = 60`, followed by a write for `"b"`:
`"a"` is rate-limited at 100 and at 159, no longer at 160, and `"z"`,
which has no entry, is not. -/
theorem C2_isRateLimited_window_witness :
    (∀ w ∈ [(("b", 500) : String × Time)], w.1 ≠ "a") ∧
    IsRateLimited (addAll [("b", 500)] (AddRateLimitCookie "a" (100 + 60) ⟨[], emptyRegistry⟩))
        100 "a" = true ∧
    IsRateLimited (addAll [("b", 500)] (AddRateLimitCookie "a" (100 + 60) ⟨[], emptyRegistry⟩))
        159 "a" = true ∧
    IsRateLimited (addAll [("b", 500)] (AddRateLimitCookie "a" (100 + 60) ⟨[], emptyRegistry⟩))
        160 "a" = false ∧
    IsRateLimited (addAll [("b", 500)] (AddRateLimitCookie "a" (100 + 60) ⟨[], emptyRegistry⟩))
        160 "z" = false :=
  have h := C2_isRateLimited_window ⟨[], emptyRegistry⟩ "a" 100 60 [("b", 500)]
    (by decide)
  ⟨by decide, h.2.1 100 (by decide) (by decide), h.2.1 159 (by decide) (by decide),
   h.2.2.1 160 (by decide), h.2.2.2 _ 160 "z" (by decide)⟩

/-- C3, as stated, fails: in the one-element set `[" b"]` the value `" b"`
(with a leading blank) is quarantined for 60 from time 0 in an empty
registry; the view built at time 0 is `["b"]`, not the set with `" b"`
removed, and the view built at time 60 is `["b"]`, not the set itself. -/
theorem C3_counterexample :
    [" b"].Nodup ∧ " b" ∈ GetSGCookies ⟨[" b"], emptyRegistry⟩ ∧
    (NewCookieManager (AddRateLimitCookie " b" (0 + 60) ⟨[" b"], emptyRegistry⟩) 0).2.Cookies
      = ["b"] ∧
    (NewCookieManager (AddRateLimitCookie " b" (0 + 60) ⟨[" b"], emptyRegistry⟩) 0).2.Cookies
      ≠ (GetSGCookies ⟨[" b"], emptyRegistry⟩).erase " b" ∧
    (NewCookieManager (AddRateLimitCookie " b" (0 + 60) ⟨[" b"], emptyRegistry⟩) 60).2.Cookies
      ≠ GetSGCookies ⟨[" b"], emptyRegistry⟩ := by
  decide

/-- C3 (amended): for every credential set of distinct values that are
non-empty and carry no leading or trailing white space, every value `b`,
time `t` and duration `d > 0`, starting from a registry in which no other
credential is rate-limited at `t`: after `AddRateLimitCookie(b, t+d)` the
view built at any `q` with `t ≤ q < t+d` is the set with `b` removed, the
view built at any `q ≥ t+d` is the whole set, and so is the view built at
`q2 ≥ t+d` after a first view was built at any `q1 ≤ q2`. -/
theorem C3_quarantine_then_release (p : Pkg) (b : String) (t d : Time)
    (hnodup : (GetSGCookies p).Nodup)
    (hclean : ∀ s ∈ GetSGCookies p, TrimSpace s = s ∧ s ≠ "")
    (hd : 0 < d)
    (hother : ∀ c, c ≠ b → IsRateLimited p t c = false) :
    (∀ q : Time, t ≤ q → q < t + d →
        (NewCookieManager (AddRateLimitCookie b (t + d) p) q).2.Cookies =
          (GetSGCookies p).erase b) ∧
    (∀ q : Time, t + d ≤ q →
        (NewCookieManager (AddRateLimitCookie b (t + d) p) q).2.Cookies = GetSGCookies p) ∧
    (∀ q1 q2 : Time, q1 ≤ q2 → t + d ≤ q2 →
        (NewCookieManager (NewCookieManager (AddRateLimitCookie b (t + d) p) q1).1 q2).2.Cookies
          = GetSGCookies p) := by
  have hclean1 : ∀ q, (NewCookieManager (AddRateLimitCookie b (t + d) p) q).2.Cookies =
      (GetSGCookies p).filter
        (fun v => !IsRateLimited (AddRateLimitCookie b (t + d) p) q v) :=
    fun q => newCookieManager_clean (AddRateLimitCookie b (t + d) p) q hclean
  have hoth : ∀ q, t ≤ q → ∀ v, v ≠ b →
      IsRateLimited (AddRateLimitCookie b (t + d) p) q v = false := by
    intro q hq v hv
    rw [isRateLimited_add_other p b v (t + d) q hv]
    exact isRateLimited_false_mono p t q v hq (hother v hv)
  have htd : t ≤ t + d := le_add_of_nonneg_right (le_of_lt hd)
  have hlate : ∀ q, t + d ≤ q → ∀ v,
      IsRateLimited (AddRateLimitCookie b (t + d) p) q v = false := by
    intro q hq v
    by_cases hv : v = b
    · subst hv
      rw [isRateLimited_add_self]
      exact decide_eq_false (not_lt.mpr hq)
    · exact hoth q (le_trans htd hq) v hv
  refine ⟨?_, ?_, ?_⟩
  · intro q hq1 hq2
    rw [hclean1 q, hnodup.erase_eq_filter b]
    apply List.filter_congr
    intro v _
    by_cases hv : v = b
    · subst hv
      rw [isRateLimited_add_self]
      simp [hq2]
    · rw [hoth q hq1 v hv]
      simp [hv]
  · intro q hq
    rw [hclean1 q]
    apply List.filter_eq_self.mpr
    intro v _
    rw [hlate q hq v]
    rfl
  · intro q1 q2 h12 hq2
    have hc := newCookieManager_clean
      (NewCookieManager (AddRateLimitCookie b (t + d) p) q1).1 q2 hclean
    rw [hc]
    apply List.filter_eq_self.mpr
    intro v _
    rw [newCookieManager_isRateLimited _ q1 q2 h12 v, hlate q2 hq2 v]
    rfl

/-- C3 (amended) on the scenario of the specification: the set
`["a", "b", "c"]`, `"b"` quarantined for 60 from time 0.  The view built
at time 0 is `["a", "c"]`, two calls of `GetNextCookie` on it return `"c"`
then `"a"`, and the views built at time 60, directly or after the first
view, are `["a", "b", "c"]` again. -/
theorem C3_quarantine_then_release_witness :
    (GetSGCookies ⟨["a", "b", "c"], emptyRegistry⟩).Nodup ∧
    (∀ s ∈ GetSGCookies ⟨["a", "b", "c"], emptyRegistry⟩, TrimSpace s = s ∧ s ≠ "") ∧
    (0 : Time) < 60 ∧
    (∀ c, c ≠ "b" → IsRateLimited ⟨["a", "b", "c"], emptyRegistry⟩ 0 c = false) ∧
    (NewCookieManager (AddRateLimitCookie "b" (0 + 60) ⟨["a", "b", "c"], emptyRegistry⟩)
        0).2.Cookies = ["a", "c"] ∧
    nextResults 2
        (NewCookieManager (AddRateLimitCookie "b" (0 + 60) ⟨["a", "b", "c"], emptyRegistry⟩)
          0).2 = [("c", none), ("a", none)] ∧
    (NewCookieManager (AddRateLimitCookie "b" (0 + 60) ⟨["a", "b", "c"], emptyRegistry⟩)
        60).2.Cookies = ["a", "b", "c"] ∧
    (NewCookieManager
        (NewCookieManager (AddRateLimitCookie "b" (0 + 60) ⟨["a", "b", "c"], emptyRegistry⟩)
          0).1 60).2.Cookies = ["a", "b", "c"] :=
  have h := C3_quarantine_then_release ⟨["a", "b", "c"], emptyRegistry⟩ "b" 0 60
    (by decide) (by decide) (by decide) (fun _ _ => rfl)
  ⟨by decide, by decide, by decide, fun _ _ => rfl,
   (h.1 0 (by decide) (by decide)).trans (by decide),
   by decide,
   h.2.1 60 (by decide),
   h.2.2 0 60 (by decide) (by decide)⟩

/-! ## Claims on the selector -/

/-- C4: on a view with at least one member and cursor `i`, `GetNextCookie`
sets the cursor to `(i + 1) mod len`, returns the member stored at that
position with a nil error and leaves the member list unchanged; on a view
without members it returns the empty string and the error
"no cookies available", and leaves the view as it is. -/
theorem C4_getNextCookie (cm : CookieManager) :
    (1 ≤ cm.Cookies.length →
      cm.GetNextCookie.1.currentIndex = (cm.currentIndex + 1) % cm.Cookies.length ∧
      cm.GetNextCookie.1.Cookies[cm.GetNextCookie.1.currentIndex]? =
        some cm.GetNextCookie.2.1 ∧
      cm.GetNextCookie.2.2 = none ∧
      cm.GetNextCookie.1.Cookies = cm.Cookies) ∧
    (cm.Cookies.length = 0 →
      cm.GetNextCookie.2 = ("", some "no cookies available") ∧ cm.GetNextCookie.1 = cm) := by
  constructor
  · intro h
    obtain ⟨h1, h2, h3⟩ := getNextCookie_pos cm h
    refine ⟨by rw [h1], ?_, h3, by rw [h1]⟩
    rw [h1]
    exact h2
  · intro h
    rw [getNextCookie_empty cm h]
    exact ⟨rfl, rfl⟩

/-- C4 on the view `["a", "b", "c"]` with the cursor at 2 (the call wraps
around to `"a"`) and on the empty view. -/
theorem C4_getNextCookie_witness :
    CookieManager.GetNextCookie ⟨["a", "b", "c"], 2⟩ = (⟨["a", "b", "c"], 0⟩, "a", none) ∧
    (CookieManager.GetNextCookie ⟨["a", "b", "c"], 2⟩).1.currentIndex = (2 + 1) % 3 ∧
    CookieManager.GetNextCookie ⟨[], 0⟩ = (⟨[], 0⟩, "", some "no cookies available") :=
  ⟨by decide, ((C4_getNextCookie ⟨["a", "b", "c"], 2⟩).1 (by decide)).1, by decide⟩

/-- C5: for a credential set of `n ≥ 1` distinct values, each non-empty and
without surrounding white space, none of them rate-limited at `now`, on the
view freshly built by `NewCookieManager`: the `k`-th of `n + 1` consecutive
calls of `GetNextCookie` (`k = 1 .. n + 1`) succeeds and returns the
snapshot element at index `k mod n`; the strings returned by the first `n`
calls are the snapshot rotated by one place, a permutation of the set in
which every member occurs exactly once; and call `n + 1` returns what the
first call returned. -/
theorem C5_round_robin (p : Pkg) (now : Time)
    (hnodup : (GetSGCookies p).Nodup)
    (hclean : ∀ s ∈ GetSGCookies p, TrimSpace s = s ∧ s ≠ "")
    (hfree : ∀ c ∈ GetSGCookies p, IsRateLimited p now c = false)
    (hn : 1 ≤ (GetSGCookies p).length) :
    (∀ k, 1 ≤ k → k ≤ (GetSGCookies p).length + 1 →
      ∃ s, (GetSGCookies p)[k % (GetSGCookies p).length]? = some s ∧
        (nextResults ((GetSGCookies p).length + 1) (NewCookieManager p now).2)[k - 1]? =
          some (s, none)) ∧
    (nextResults (GetSGCookies p).length (NewCookieManager p now).2).map Prod.fst =
      (GetSGCookies p).rotate 1 ∧
    ((nextResults (GetSGCookies p).length (NewCookieManager p now).2).map Prod.fst).Perm
      (GetSGCookies p) ∧
    (∀ c ∈ GetSGCookies p,
      ((nextResults (GetSGCookies p).length (NewCookieManager p now).2).map Prod.fst).count c
        = 1) ∧
    (nextResults ((GetSGCookies p).length + 1) (NewCookieManager p now).2)[
        (GetSGCookies p).length]? =
      (nextResults ((GetSGCookies p).length + 1) (NewCookieManager p now).2)[0]? := by
  rw [newCookieManager_all p now hclean hfree]
  generalize GetSGCookies p = S at hnodup hn
  have hpos : 0 < S.length := hn
  have hcall : ∀ k, 1 ≤ k → k ≤ S.length + 1 →
      (nextResults (S.length + 1) { Cookies := S, currentIndex := 0 })[k - 1]? =
        (S[k % S.length]?).map (fun s => (s, none)) := by
    intro k hk1 hk2
    rw [nextResults_getElem? (S.length + 1) ⟨S, 0⟩ hpos (k - 1) (by omega)]
    simp only [Nat.zero_add]
    rw [show 1 + (k - 1) = k by omega]
  have hrot := nextResults_fresh S hpos
  refine ⟨?_, hrot, ?_, ?_, ?_⟩
  · intro k hk1 hk2
    have hlt : k % S.length < S.length := Nat.mod_lt _ hpos
    refine ⟨S[k % S.length], List.getElem?_eq_getElem hlt, ?_⟩
    rw [hcall k hk1 hk2, List.getElem?_eq_getElem hlt]
    rfl
  · rw [hrot]
    exact List.rotate_perm S 1
  · intro c hc
    rw [hrot, (List.rotate_perm S 1).count_eq]
    exact List.count_eq_one_of_mem hnodup hc
  · have h1 := hcall (S.length + 1) (by omega) (le_refl _)
    have h2 := hcall 1 (le_refl _) (by omega)
    simp only [Nat.add_sub_cancel, Nat.add_mod_left] at h1
    simp only [Nat.sub_self] at h2
    rw [h1, h2]

/-- C5 on the set `["a", "b", "c"]` with an empty registry: four calls
return `"b"`, `"c"`, `"a"`, `"b"`. -/
theorem C5_round_robin_witness :
    (GetSGCookies ⟨["a", "b", "c"], emptyRegistry⟩).Nodup ∧
    (∀ s ∈ GetSGCookies ⟨["a", "b", "c"], emptyRegistry⟩, TrimSpace s = s ∧ s ≠ "") ∧
    (nextResults 3 (NewCookieManager ⟨["a", "b", "c"], emptyRegistry⟩ 0).2).map Prod.fst =
      (GetSGCookies ⟨["a", "b", "c"], emptyRegistry⟩).rotate 1 ∧
    nextResults 4 (NewCookieManager ⟨["a", "b", "c"], emptyRegistry⟩ 0).2 =
      [("b", none), ("c", none), ("a", none), ("b", none)] :=
  ⟨by decide, by decide,
   (C5_round_robin ⟨["a", "b", "c"], emptyRegistry⟩ 0 (by decide) (by decide)
      (fun _ _ => rfl) (by decide)).2.1,
   by decide⟩

/-- C6: with `r` the index drawn by `rand.Intn(len)`, `0 ≤ r < len`:
`GetRandomCookie` returns the member at index `r` with a nil error, sets
the cursor to `r` and leaves the member list unchanged, and the next
`GetNextCookie` returns the member at index `(r + 1) mod len`; every member
of the view is returned for some admissible draw; and on a view without
members the result is the empty string with the error
"no cookies available", whatever the draw. -/
theorem C6_getRandomCookie (cm : CookieManager) :
    (∀ r, r < cm.Cookies.length →
      ∃ c st, cm.Cookies[r]? = some c ∧ cm.GetRandomCookie r = some (st, c, none) ∧
        st = { Cookies := cm.Cookies, currentIndex := r } ∧
        st.GetNextCookie.2.2 = none ∧
        cm.Cookies[(r + 1) % cm.Cookies.length]? = some st.GetNextCookie.2.1) ∧
    (∀ m ∈ cm.Cookies, ∃ r st, r < cm.Cookies.length ∧
      cm.GetRandomCookie r = some (st, m, none)) ∧
    (cm.Cookies.length = 0 →
      ∀ r, cm.GetRandomCookie r = some (cm, "", some "no cookies available")) := by
  have hdraw : ∀ r (hr : r < cm.Cookies.length),
      cm.GetRandomCookie r =
        some ({ Cookies := cm.Cookies, currentIndex := r }, cm.Cookies[r], none) := by
    intro r hr
    unfold CookieManager.GetRandomCookie
    rw [if_neg (by omega), List.getElem?_eq_getElem hr]
  refine ⟨?_, ?_, ?_⟩
  · intro r hr
    refine ⟨cm.Cookies[r], { Cookies := cm.Cookies, currentIndex := r },
      List.getElem?_eq_getElem hr, hdraw r hr, rfl, ?_, ?_⟩
    · exact (getNextCookie_pos ⟨cm.Cookies, r⟩ (Nat.lt_of_le_of_lt (Nat.zero_le r) hr)).2.2
    · exact (getNextCookie_pos ⟨cm.Cookies, r⟩ (Nat.lt_of_le_of_lt (Nat.zero_le r) hr)).2.1
  · intro m hm
    obtain ⟨r, hr, hget⟩ := List.getElem_of_mem hm
    exact ⟨r, _, hr, by rw [hdraw r hr, hget]⟩
  · intro h r
    unfold CookieManager.GetRandomCookie
    rw [if_pos h]

/-- C6 on the view `["a", "b", "c"]` with the draw 2: `"c"` is returned,
the cursor becomes 2 and the next `GetNextCookie` returns `"a"`. -/
theorem C6_getRandomCookie_witness :
    CookieManager.GetRandomCookie ⟨["a", "b", "c"], 0⟩ 2 =
      some (⟨["a", "b", "c"], 2⟩, "c", none) ∧
    (CookieManager.GetNextCookie ⟨["a", "b", "c"], 2⟩).2 = ("a", none) ∧
    (∃ r st, r < 3 ∧ CookieManager.GetRandomCookie ⟨["a", "b", "c"], 0⟩ r =
      some (st, "b", none)) ∧
    CookieManager.GetRandomCookie ⟨[], 0⟩ 0 = some (⟨[], 0⟩, "", some "no cookies available") :=
  ⟨by decide, by decide,
   (C6_getRandomCookie ⟨["a", "b", "c"], 0⟩).2.1 "b" (by decide),
   by decide⟩

/-! ## Claims on removal -/

/-- C7, as stated, fails: from the set `["a", " a"]` the package-level
`RemoveCookie("a")` removes `"a"` and leaves `[" a"]`, and the view built
right afterwards is `["a"]`: it contains `"a"`. -/
theorem C7_counterexample :
    "a" ∈ GetSGCookies ⟨["a", " a"], emptyRegistry⟩ ∧
    GetSGCookies (RemoveCookie "a" ⟨["a", " a"], emptyRegistry⟩) = [" a"] ∧
    (NewCookieManager (RemoveCookie "a" ⟨["a", " a"], emptyRegistry⟩) 0).2.Cookies = ["a"] ∧
    "a" ∈ (NewCookieManager (RemoveCookie "a" ⟨["a", " a"], emptyRegistry⟩) 0).2.Cookies := by
  decide

/-- C7 (amended): for every credential set, registry, time and credential
`c` such that no value of the set other than `c` itself has `c` as its
trimmed form (so whenever the values of the set are already trimmed), the
view built by `NewCookieManager` right after the package-level
`RemoveCookie(c)` does not contain `c`, and `c` is no longer in the set. -/
theorem C7_removed_not_in_view (p : Pkg) (now : Time) (c : String)
    (htrim : ∀ s ∈ GetSGCookies p, TrimSpace s = c → s = c) :
    c ∉ GetSGCookies (RemoveCookie c p) ∧
    c ∉ (NewCookieManager (RemoveCookie c p) now).2.Cookies := by
  constructor
  · rw [removeCookie_SGCookies]
    simp [List.mem_filter]
  · intro hmem
    obtain ⟨⟨s, hs, hsc⟩, _, _⟩ := (mem_newCookieManager _ now c).1 hmem
    rw [removeCookie_SGCookies, List.mem_filter] at hs
    have hne : s ≠ c := by simpa using hs.2
    exact hne (htrim s hs.1 hsc)

/-- C7 (amended) on the set `["a", "b", "c"]` with `"b"` removed, `"b"`
being rate-limited or not. -/
theorem C7_removed_not_in_view_witness :
    (∀ s ∈ GetSGCookies ⟨["a", "b", "c"], emptyRegistry.Store "b" ⟨60⟩⟩,
        TrimSpace s = "b" → s = "b") ∧
    "b" ∉ (NewCookieManager (RemoveCookie "b" ⟨["a", "b", "c"], emptyRegistry.Store "b" ⟨60⟩⟩)
        100).2.Cookies ∧
    (NewCookieManager (RemoveCookie "b" ⟨["a", "b", "c"], emptyRegistry.Store "b" ⟨60⟩⟩)
        100).2.Cookies = ["a", "c"] :=
  ⟨by decide,
   (C7_removed_not_in_view ⟨["a", "b", "c"], emptyRegistry.Store "b" ⟨60⟩⟩ 100 "b"
      (by decide)).2,
   by decide⟩

/-- C8: for every view and every member `c` of it, the method
`RemoveCookie(c)` returns a nil error and leaves the member list equal to
the previous one with the first occurrence of `c` erased (one element
shorter, every other element kept as often as before and in the same
order); the cursor is unchanged when it is below the new length and 0
otherwise; and when the view had no duplicates `c` is no longer a
member. -/
theorem C8_cm_removeCookie (cm : CookieManager) (c : String) (hc : c ∈ cm.Cookies) :
    (cm.RemoveCookie c).2 = none ∧
    (cm.RemoveCookie c).1.Cookies = cm.Cookies.erase c ∧
    (cm.RemoveCookie c).1.Cookies.length + 1 = cm.Cookies.length ∧
    (cm.RemoveCookie c).1.Cookies.Sublist cm.Cookies ∧
    (∀ x, x ≠ c → (cm.RemoveCookie c).1.Cookies.count x = cm.Cookies.count x) ∧
    (cm.currentIndex < (cm.RemoveCookie c).1.Cookies.length →
      (cm.RemoveCookie c).1.currentIndex = cm.currentIndex) ∧
    ((cm.RemoveCookie c).1.Cookies.length ≤ cm.currentIndex →
      (cm.RemoveCookie c).1.currentIndex = 0) ∧
    (cm.Cookies.Nodup → c ∉ (cm.RemoveCookie c).1.Cookies) := by
  rw [cm_removeCookie_mem cm c hc]
  have hlen : (cm.Cookies.erase c).length + 1 = cm.Cookies.length := by
    have hpos : 0 < cm.Cookies.length := List.length_pos_of_mem hc
    rw [List.length_erase_of_mem hc]
    omega
  refine ⟨rfl, rfl, hlen, List.erase_sublist c cm.Cookies, ?_, ?_, ?_, ?_⟩
  · intro x hx
    exact List.count_erase_of_ne hx cm.Cookies
  · intro h
    simp only at h ⊢
    rw [if_neg (by omega)]
  · intro h
    simp only at h ⊢
    rw [if_pos h]
  · intro hnd
    exact hnd.not_mem_erase

/-- C8 on the view `["a", "b", "a", "c"]`: removing `"a"` erases its first
occurrence only; with the cursor at 3 the cursor is reset to 0, with the
cursor at 1 it stays. -/
theorem C8_cm_removeCookie_witness :
    "a" ∈ ["a", "b", "a", "c"] ∧
    (CookieManager.RemoveCookie ⟨["a", "b", "a", "c"], 3⟩ "a").1.Cookies =
      ["a", "b", "a", "c"].erase "a" ∧
    CookieManager.RemoveCookie ⟨["a", "b", "a", "c"], 3⟩ "a" = (⟨["b", "a", "c"], 0⟩, none) ∧
    CookieManager.RemoveCookie ⟨["a", "b", "a", "c"], 1⟩ "a" = (⟨["b", "a", "c"], 1⟩, none) :=
  ⟨by decide, (C8_cm_removeCookie ⟨["a", "b", "a", "c"], 3⟩ "a" (by decide)).2.1,
   by decide, by decide⟩

/-- C9, as stated, fails: with the set `["a"]` and the view `["a"]` built
from it, the method `RemoveCookie("a")` succeeds and empties the view, but
in the program state after the call `GetSGCookies` still returns `["a"]`
and the view built afterwards contains `"a"` again. -/
theorem C9_counterexample :
    "a" ∈ (NewCookieManager ⟨["a"], emptyRegistry⟩ 0).2.Cookies ∧
    (CookieManager.RemoveCookie.step (NewCookieManager ⟨["a"], emptyRegistry⟩ 0).1
        (NewCookieManager ⟨["a"], emptyRegistry⟩ 0).2 "a").2 = (⟨[], 0⟩, none) ∧
    "a" ∈ GetSGCookies
      (CookieManager.RemoveCookie.step (NewCookieManager ⟨["a"], emptyRegistry⟩ 0).1
        (NewCookieManager ⟨["a"], emptyRegistry⟩ 0).2 "a").1 ∧
    "a" ∈ (NewCookieManager
      (CookieManager.RemoveCookie.step (NewCookieManager ⟨["a"], emptyRegistry⟩ 0).1
        (NewCookieManager ⟨["a"], emptyRegistry⟩ 0).2 "a").1 0).2.Cookies := by
  decide

/-- C9 (amended): the method `RemoveCookie` changes only the view it is
called on and not the Credential Set: for every credential set, registry
and time `now`, and every member `c` of the view built at `now`, the
method `RemoveCookie(c)` on that view succeeds and erases the first
occurrence of `c` from the view (the view is one member shorter, and `c`
is no longer a member when the view had no duplicates); in the program
state after the call `GetSGCookies` still returns the set as it was, with
an element whose trimmed form is `c`, and a view built afterwards at any
time `q ≥ now` contains `c` again. -/
theorem C9_cm_removeCookie_keeps_set (p : Pkg) (now q : Time) (c : String)
    (hc : c ∈ (NewCookieManager p now).2.Cookies) (hq : now ≤ q) :
    (CookieManager.RemoveCookie.step (NewCookieManager p now).1
        (NewCookieManager p now).2 c).2.2 = none ∧
    (CookieManager.RemoveCookie.step (NewCookieManager p now).1
        (NewCookieManager p now).2 c).2.1.Cookies =
      (NewCookieManager p now).2.Cookies.erase c ∧
    (CookieManager.RemoveCookie.step (NewCookieManager p now).1
        (NewCookieManager p now).2 c).2.1.Cookies.length + 1 =
      (NewCookieManager p now).2.Cookies.length ∧
    ((NewCookieManager p now).2.Cookies.Nodup →
      c ∉ (CookieManager.RemoveCookie.step (NewCookieManager p now).1
        (NewCookieManager p now).2 c).2.1.Cookies) ∧
    GetSGCookies (CookieManager.RemoveCookie.step (NewCookieManager p now).1
        (NewCookieManager p now).2 c).1 = GetSGCookies p ∧
    (∃ s ∈ GetSGCookies (CookieManager.RemoveCookie.step (NewCookieManager p now).1
        (NewCookieManager p now).2 c).1, TrimSpace s = c) ∧
    c ∈ (NewCookieManager (CookieManager.RemoveCookie.step (NewCookieManager p now).1
        (NewCookieManager p now).2 c).1 q).2.Cookies := by
  have hstep : CookieManager.RemoveCookie.step (NewCookieManager p now).1
      (NewCookieManager p now).2 c =
      ((NewCookieManager p now).1,
        { Cookies := (NewCookieManager p now).2.Cookies.erase c,
          currentIndex :=
            if (NewCookieManager p now).2.currentIndex ≥
                ((NewCookieManager p now).2.Cookies.erase c).length then 0
            else (NewCookieManager p now).2.currentIndex },
        none) := by
    unfold CookieManager.RemoveCookie.step
    rw [cm_removeCookie_mem _ c hc]
  obtain ⟨hs, hne, hfree⟩ := (mem_newCookieManager p now c).1 hc
  rw [hstep]
  refine ⟨rfl, rfl, ?_, fun hnd => hnd.not_mem_erase, rfl, hs, ?_⟩
  · have hpos : 0 < (NewCookieManager p now).2.Cookies.length := List.length_pos_of_mem hc
    simp only []
    rw [List.length_erase_of_mem hc]
    omega
  · refine (mem_newCookieManager _ q c).2 ⟨hs, hne, ?_⟩
    rw [newCookieManager_isRateLimited p now q hq c]
    exact isRateLimited_false_mono p now q c hq hfree

/-- C9 (amended) on the set `["a", "b"]`: `"a"` is removed from the view
built at time 0, is still in the set, and is a member of the view built at
time 5. -/
theorem C9_cm_removeCookie_keeps_set_witness :
    "a" ∈ (NewCookieManager ⟨["a", "b"], emptyRegistry⟩ 0).2.Cookies ∧ (0 : Time) ≤ 5 ∧
    (CookieManager.RemoveCookie.step (NewCookieManager ⟨["a", "b"], emptyRegistry⟩ 0).1
        (NewCookieManager ⟨["a", "b"], emptyRegistry⟩ 0).2 "a").2 = (⟨["b"], 0⟩, none) ∧
    GetSGCookies (CookieManager.RemoveCookie.step
        (NewCookieManager ⟨["a", "b"], emptyRegistry⟩ 0).1
        (NewCookieManager ⟨["a", "b"], emptyRegistry⟩ 0).2 "a").1 = ["a", "b"] ∧
    "a" ∈ (NewCookieManager (CookieManager.RemoveCookie.step
        (NewCookieManager ⟨["a", "b"], emptyRegistry⟩ 0).1
        (NewCookieManager ⟨["a", "b"], emptyRegistry⟩ 0).2 "a").1 5).2.Cookies :=
  ⟨by decide, by decide, by decide, by decide,
   (C9_cm_removeCookie_keeps_set ⟨["a", "b"], emptyRegistry⟩ 0 5 "a" (by decide)
      (by decide)).2.2.2.2.2.2⟩

/-- C10, as stated, fails: on the empty view the method `RemoveCookie("a")`
fails with "no cookies available", not with
"RemoveCookie -> cookie not found"; so in the scenario on the view `["a"]`
the second removal of `"a"` reports the empty pool. -/
theorem C10_counterexample :
    "a" ∉ (⟨[], 0⟩ : CookieManager).Cookies ∧
    (CookieManager.RemoveCookie ⟨[], 0⟩ "a").2 = some "no cookies available" ∧
    (CookieManager.RemoveCookie ⟨[], 0⟩ "a").2 ≠ some "RemoveCookie -> cookie not found" ∧
    (CookieManager.RemoveCookie (CookieManager.RemoveCookie ⟨["a"], 0⟩ "a").1 "a").2 ≠
      some "RemoveCookie -> cookie not found" := by
  decide

/-- C10 (amended): the method `RemoveCookie(c)` returns a nil error iff `c`
is a member of the view; on a view that has members but not `c` it fails
with "RemoveCookie -> cookie not found" and on the empty view it fails
with "no cookies available", the error of the selection operations, the
view being left as it was in both cases; the two errors are distinct. -/
theorem C10_cm_removeCookie_errors (cm : CookieManager) (c : String) :
    ((cm.RemoveCookie c).2 = none ↔ c ∈ cm.Cookies) ∧
    (c ∉ cm.Cookies → cm.Cookies ≠ [] →
      cm.RemoveCookie c = (cm, some "RemoveCookie -> cookie not found")) ∧
    (cm.Cookies = [] → cm.RemoveCookie c = (cm, some "no cookies available") ∧
      cm.GetNextCookie.2.2 = (cm.RemoveCookie c).2) ∧
    (some "RemoveCookie -> cookie not found" : Option String) ≠
      some "no cookies available" := by
  refine ⟨?_, fun hc hne => cm_removeCookie_not_mem cm c hne hc, ?_, by decide⟩
  · constructor
    · intro h
      by_contra hc
      by_cases hne : cm.Cookies = []
      · rw [cm_removeCookie_empty cm c hne] at h
        cases h
      · rw [cm_removeCookie_not_mem cm c hne hc] at h
        cases h
    · intro hc
      rw [cm_removeCookie_mem cm c hc]
  · intro h
    refine ⟨cm_removeCookie_empty cm c h, ?_⟩
    rw [cm_removeCookie_empty cm c h, getNextCookie_empty cm (by rw [h]; rfl)]

/-- C10 (amended) on the scenario of the specification: on the view
`["a"]` the removal of `"a"` succeeds, the following `GetNextCookie` fails
with "no cookies available", and so does a second removal of `"a"`; on the
view `["b"]` the removal of `"a"` fails with
"RemoveCookie -> cookie not found". -/
theorem C10_cm_removeCookie_errors_witness :
    CookieManager.RemoveCookie ⟨["a"], 0⟩ "a" = (⟨[], 0⟩, none) ∧
    CookieManager.GetNextCookie ⟨[], 0⟩ = (⟨[], 0⟩, "", some "no cookies available") ∧
    CookieManager.RemoveCookie ⟨[], 0⟩ "a" = (⟨[], 0⟩, some "no cookies available") ∧
    CookieManager.RemoveCookie ⟨["b"], 0⟩ "a" =
      (⟨["b"], 0⟩, some "RemoveCookie -> cookie not found") :=
  ⟨by decide, by decide,
   ((C10_cm_removeCookie_errors ⟨[], 0⟩ "a").2.2.1 rfl).1,
   (C10_cm_removeCookie_errors ⟨["b"], 0⟩ "a").2.1 (by decide) (by decide)⟩

/-! ## Claims on the empty pool, on re-quarantining and on the Credential Set -/

/-- C11: `InitSGCookies` with an empty `SG_COOKIE` returns (it is a total
function) and leaves the Credential Set empty; and whenever the Credential
Set is empty, never initialised or initialised from the empty value, for
every registry, time and draw the view built by `NewCookieManager` has no
members and both `GetNextCookie` and `GetRandomCookie` on it return the
empty string with the error "no cookies available". -/
theorem C11_empty_pool (p0 : Pkg) (R : Registry) (now : Time) (r : Nat) :
    GetSGCookies (InitSGCookies "" p0) = [] ∧
    (∀ p : Pkg, (p = ⟨[], R⟩ ∨ p = InitSGCookies "" p0) →
      (NewCookieManager p now).2 = { Cookies := [], currentIndex := 0 } ∧
      (NewCookieManager p now).2.GetNextCookie.2 = ("", some "no cookies available") ∧
      (NewCookieManager p now).2.GetRandomCookie r =
        some ((NewCookieManager p now).2, "", some "no cookies available")) := by
  refine ⟨initSGCookies_empty p0, ?_⟩
  intro p hp
  have hS : GetSGCookies p = [] := by
    rcases hp with h | h
    · rw [h]; rfl
    · rw [h]; exact initSGCookies_empty p0
  have hview : (NewCookieManager p now).2 = { Cookies := [], currentIndex := 0 } := by
    have hc : (NewCookieManager p now).2.Cookies = [] := by
      rw [newCookieManager_cookies]
      have hS2 : p.SGCookies = [] := hS
      rw [hS2]
      rfl
    have hi : (NewCookieManager p now).2.currentIndex = 0 := rfl
    cases hcm : (NewCookieManager p now).2 with
    | mk cs i =>
      rw [hcm] at hc hi
      simp only at hc hi
      rw [hc, hi]
  refine ⟨hview, ?_, ?_⟩
  · rw [hview, getNextCookie_empty ⟨[], 0⟩ rfl]
  · rw [hview, getRandomCookie_empty ⟨[], 0⟩ r rfl]

/-- C11 with a registry that holds an entry for `"a"`, at time 5: the view
of the set left by `InitSGCookies` on the empty value is empty and the
selection fails with the empty-pool error. -/
theorem C11_empty_pool_witness :
    GetSGCookies (InitSGCookies "" ⟨["x"], emptyRegistry.Store "a" ⟨60⟩⟩) = [] ∧
    (NewCookieManager (InitSGCookies "" ⟨["x"], emptyRegistry.Store "a" ⟨60⟩⟩) 5).2 =
      { Cookies := [], currentIndex := 0 } ∧
    CookieManager.GetNextCookie ⟨[], 0⟩ = (⟨[], 0⟩, "", some "no cookies available") ∧
    CookieManager.GetRandomCookie ⟨[], 0⟩ 3 = some (⟨[], 0⟩, "", some "no cookies available") :=
  ⟨by decide,
   ((C11_empty_pool ⟨["x"], emptyRegistry.Store "a" ⟨60⟩⟩ emptyRegistry 5 3).2 _
      (Or.inr rfl)).1,
   by decide, by decide⟩

/-- C12: `AddRateLimitCookie(c, e1)` followed by `AddRateLimitCookie(c, e2)`
leaves the same package state as `AddRateLimitCookie(c, e2)` alone, so
every `IsRateLimited` query, for every credential and time, has the same
answer; applying `AddRateLimitCookie(c, e)` twice is the same as applying
it once; and `AddRateLimitCookie(c, e)` changes neither the `IsRateLimited`
answer of any credential other than `c` nor the Credential Set. -/
theorem C12_requarantine_overwrites (p : Pkg) (c : String) (e1 e2 : Time) :
    AddRateLimitCookie c e2 (AddRateLimitCookie c e1 p) = AddRateLimitCookie c e2 p ∧
    (∀ (k : String) (q : Time),
      IsRateLimited (AddRateLimitCookie c e2 (AddRateLimitCookie c e1 p)) q k =
        IsRateLimited (AddRateLimitCookie c e2 p) q k) ∧
    AddRateLimitCookie c e1 (AddRateLimitCookie c e1 p) = AddRateLimitCookie c e1 p ∧
    (∀ (k : String) (q : Time), k ≠ c →
      IsRateLimited (AddRateLimitCookie c e1 p) q k = IsRateLimited p q k) ∧
    GetSGCookies (AddRateLimitCookie c e1 p) = GetSGCookies p := by
  have hover : ∀ a b : Time,
      AddRateLimitCookie c b (AddRateLimitCookie c a p) = AddRateLimitCookie c b p := by
    intro a b
    have hreg : (p.rateLimitCookies.Store c ⟨a⟩).Store c ⟨b⟩ = p.rateLimitCookies.Store c ⟨b⟩ := by
      funext k
      unfold Registry.Store
      by_cases hk : k = c
      · rw [if_pos hk, if_pos hk]
      · rw [if_neg hk, if_neg hk, if_neg hk]
    unfold AddRateLimitCookie
    simp only [hreg]
  refine ⟨hover e1 e2, ?_, hover e1 e1, ?_, rfl⟩
  · intro k q
    rw [hover e1 e2]
  · intro k q hk
    exact isRateLimited_add_other p c k e1 q hk

/-- C12 with `"a"` quarantined until 50 and then until 90, in a registry
that holds `"b"` until 70: at time 60 `"a"` is rate-limited, as after the
second call alone, and `"b"` is rate-limited as before. -/
theorem C12_requarantine_overwrites_witness :
    IsRateLimited
      (AddRateLimitCookie "a" 90 (AddRateLimitCookie "a" 50 ⟨["a"], emptyRegistry.Store "b" ⟨70⟩⟩))
      60 "a" =
    IsRateLimited (AddRateLimitCookie "a" 90 ⟨["a"], emptyRegistry.Store "b" ⟨70⟩⟩) 60 "a" ∧
    IsRateLimited
      (AddRateLimitCookie "a" 90 (AddRateLimitCookie "a" 50 ⟨["a"], emptyRegistry.Store "b" ⟨70⟩⟩))
      60 "a" = true ∧
    IsRateLimited (AddRateLimitCookie "a" 50 ⟨["a"], emptyRegistry.Store "b" ⟨70⟩⟩) 60 "b" =
      true :=
  ⟨(C12_requarantine_overwrites ⟨["a"], emptyRegistry.Store "b" ⟨70⟩⟩ "a" 50 90).2.1 "a" 60,
   by decide, by decide⟩

/-- C13, as stated, fails: from the `SG_COOKIE` value `"a,a"`,
`InitSGCookies` produces the set `["a", "a"]`, which has two equal
elements. -/
theorem C13_counterexample :
    GetSGCookies (InitSGCookies "a,a" ⟨[], emptyRegistry⟩) = ["a", "a"] ∧
    ¬ (GetSGCookies (InitSGCookies "a,a" ⟨[], emptyRegistry⟩)).Nodup := by
  decide

/-- C13 (amended): `InitSGCookies` stores the comma-separated fields of
`SG_COOKIE` in order and as they are (nothing for the empty value), so the
set it produces has no two equal elements exactly when the fields are
pairwise distinct; and the package-level `RemoveCookie` preserves the
absence of duplicates. -/
theorem C13_duplicates (cookieStr c : String) (p : Pkg) :
    GetSGCookies (InitSGCookies cookieStr p) =
      (if cookieStr = "" then [] else Split cookieStr) ∧
    ((GetSGCookies (InitSGCookies cookieStr p)).Nodup ↔
      (cookieStr = "" ∨ (Split cookieStr).Nodup)) ∧
    ((GetSGCookies p).Nodup → (GetSGCookies (RemoveCookie c p)).Nodup) := by
  have hinit : GetSGCookies (InitSGCookies cookieStr p) =
      (if cookieStr = "" then [] else Split cookieStr) := by
    by_cases h : cookieStr = ""
    · rw [if_pos h, h]; exact initSGCookies_empty p
    · rw [if_neg h]; exact initSGCookies_fields cookieStr p h
  refine ⟨hinit, ?_, ?_⟩
  · rw [hinit]
    by_cases h : cookieStr = ""
    · rw [if_pos h]
      exact ⟨fun _ => Or.inl h, fun _ => List.nodup_nil⟩
    · rw [if_neg h]
      exact ⟨fun hn => Or.inr hn, fun hn => hn.resolve_left h⟩
  · intro hn
    rw [removeCookie_SGCookies]
    exact hn.filter _

/-- C13 (amended) on the value `"a, b,c"`, whose fields are distinct, and
on the removal of `"b"` from the set `["a", "b", "c"]`. -/
theorem C13_duplicates_witness :
    GetSGCookies (InitSGCookies "a, b,c" ⟨[], emptyRegistry⟩) = ["a", " b", "c"] ∧
    (GetSGCookies (InitSGCookies "a, b,c" ⟨[], emptyRegistry⟩)).Nodup ∧
    (GetSGCookies (RemoveCookie "b" ⟨["a", "b", "c"], emptyRegistry⟩)).Nodup :=
  ⟨by decide, by decide,
   (C13_duplicates "" "b" ⟨["a", "b", "c"], emptyRegistry⟩).2.2 (by decide)⟩

/-- C14, as stated, fails: from the set `["a", "a"]` the package-level
`RemoveCookie("a")` removes both occurrences and leaves the empty set,
whose length is not `2 - 1`. -/
theorem C14_counterexample :
    "a" ∈ GetSGCookies ⟨["a", "a"], emptyRegistry⟩ ∧
    GetSGCookies (RemoveCookie "a" ⟨["a", "a"], emptyRegistry⟩) = [] ∧
    (GetSGCookies (RemoveCookie "a" ⟨["a", "a"], emptyRegistry⟩)).length ≠
      (GetSGCookies ⟨["a", "a"], emptyRegistry⟩).length - 1 ∧
    GetSGCookies (RemoveCookie "a" ⟨["a", "a"], emptyRegistry⟩) ≠
      (GetSGCookies ⟨["a", "a"], emptyRegistry⟩).erase "a" := by
  decide

/-- C14 (amended): the package-level `RemoveCookie(c)` removes every
occurrence of `c` and leaves every other element in place and in the same
relative order (the new length is `len(S)` less the number of occurrences
of `c`); when `c` occurs exactly once this is the removal of one
occurrence and the new length is `len(S) - 1`; when `c` is absent the set
is unchanged; the registry is not touched.  On slices and backing arrays,
whatever capacities `append` chooses: in every memory whose `SGCookies`
holds the set, the slice returned by `GetSGCookies` holds the set, it
still holds the old set after a following `RemoveCookie(c)`, and
`SGCookies` then holds the set with the occurrences of `c` removed. -/
theorem C14_removeCookie (p : Pkg) (c : String) :
    GetSGCookies (RemoveCookie c p) = (GetSGCookies p).filter (fun s => decide (s ≠ c)) ∧
    (GetSGCookies (RemoveCookie c p)).length + (GetSGCookies p).count c =
      (GetSGCookies p).length ∧
    ((GetSGCookies p).count c = 1 →
      GetSGCookies (RemoveCookie c p) = (GetSGCookies p).erase c ∧
      (GetSGCookies (RemoveCookie c p)).length + 1 = (GetSGCookies p).length) ∧
    (c ∉ GetSGCookies p → GetSGCookies (RemoveCookie c p) = GetSGCookies p) ∧
    (RemoveCookie c p).rateLimitCookies = p.rateLimitCookies ∧
    (∀ (grow : Nat → Nat) (m : Mem), m.heap.wf m.SGCookies →
      m.heap.elems m.SGCookies = GetSGCookies p →
      m.GetSGCookies.1.heap.elems m.GetSGCookies.2 = GetSGCookies p ∧
      m.GetSGCookies.1.heap.elems m.GetSGCookies.1.SGCookies = GetSGCookies p ∧
      (Mem.RemoveCookie grow c m.GetSGCookies.1).heap.elems m.GetSGCookies.2 =
        GetSGCookies p ∧
      (Mem.RemoveCookie grow c m.GetSGCookies.1).heap.elems
          (Mem.RemoveCookie grow c m.GetSGCookies.1).SGCookies =
        GetSGCookies (RemoveCookie c p)) := by
  have hf := removeCookie_SGCookies c p
  have hlen := filter_ne_length c (GetSGCookies p)
  refine ⟨hf, ?_, ?_, ?_, rfl, ?_⟩
  · rw [hf]; exact hlen
  · intro h1
    refine ⟨?_, ?_⟩
    · rw [hf]; exact filter_ne_of_count_one c _ h1
    · rw [hf]
      rw [h1] at hlen
      exact hlen
  · intro hc
    rw [hf]
    exact filter_ne_of_not_mem c _ hc
  · intro grow m hwf hrep
    obtain ⟨g1, g2, g3, _, _⟩ := getSGCookies_spec m hwf
    obtain ⟨w1, w2⟩ := getSGCookies_wf m hwf
    obtain ⟨r1, _, r3⟩ := mem_removeCookie_spec grow c m.GetSGCookies.1 w1
    have hsnap : ∀ a, m.GetSGCookies.2.arr = some a → a < m.GetSGCookies.1.heap.length := by
      intro a ha
      rw [g3] at ha
      simp only [Option.some.injEq] at ha
      omega
    refine ⟨by rw [g1, hrep], by rw [w2, hrep], ?_, ?_⟩
    · rw [elems_congr m.GetSGCookies.1.heap _ m.GetSGCookies.2 _ hsnap r3, g1, hrep]
    · rw [r1, w2, hrep, hf]

/-- C14 (amended) on the set `["a", "b", "c"]`: removing `"b"`, which
occurs once, leaves `["a", "c"]`, and removing `"z"`, which is absent,
leaves the set as it is; and in the memory whose only array holds `"a"`,
`"b"`, `"c"`, with `append` doubling the capacity, the snapshot taken
before `"b"` is removed still holds `["a", "b", "c"]` afterwards. -/
theorem C14_removeCookie_witness :
    (GetSGCookies ⟨["a", "b", "c"], emptyRegistry⟩).count "b" = 1 ∧
    GetSGCookies (RemoveCookie "b" ⟨["a", "b", "c"], emptyRegistry⟩) =
      (GetSGCookies ⟨["a", "b", "c"], emptyRegistry⟩).erase "b" ∧
    GetSGCookies (RemoveCookie "b" ⟨["a", "b", "c"], emptyRegistry⟩) = ["a", "c"] ∧
    GetSGCookies (RemoveCookie "z" ⟨["a", "b", "c"], emptyRegistry⟩) = ["a", "b", "c"] ∧
    (Mem.RemoveCookie (fun n => 2 * n) "b"
        (Mem.GetSGCookies ⟨[["a", "b", "c"]], ⟨some 0, 3⟩⟩).1).heap.elems
      (Mem.GetSGCookies ⟨[["a", "b", "c"]], ⟨some 0, 3⟩⟩).2 =
      GetSGCookies ⟨["a", "b", "c"], emptyRegistry⟩ ∧
    (Mem.RemoveCookie (fun n => 2 * n) "b"
        (Mem.GetSGCookies ⟨[["a", "b", "c"]], ⟨some 0, 3⟩⟩).1).heap =
      [["a", "b", "c"], ["a", "b", "c"], ["a", "b", "c"], ["a"], ["a", "c"]] ∧
    (Mem.RemoveCookie (fun n => 2 * n) "b"
        (Mem.GetSGCookies ⟨[["a", "b", "c"]], ⟨some 0, 3⟩⟩).1).SGCookies = ⟨some 4, 2⟩ :=
  ⟨by decide,
   ((C14_removeCookie ⟨["a", "b", "c"], emptyRegistry⟩ "b").2.2.1 (by decide)).1,
   by decide, by decide,
   ((C14_removeCookie ⟨["a", "b", "c"], emptyRegistry⟩ "b").2.2.2.2.2 (fun n => 2 * n)
      ⟨[["a", "b", "c"]], ⟨some 0, 3⟩⟩
      ⟨by decide, fun a ha => by cases ha; decide⟩ (by decide)).2.2.1,
   by decide, by decide⟩

/-! ## Claims on the cursor, the purge, the members of a view and failed calls -/

/-- C15: the cursor invariant (the view is empty and the cursor is 0, or
the cursor is below the number of members) holds for every view returned
by `NewCookieManager`; it is preserved by `GetNextCookie`, by
`GetRandomCookie` whatever the draw, and by the method `RemoveCookie`,
whether they succeed or fail; so it holds in every reachable state, and
there, when the view has members, the index that `GetNextCookie` reads and
every index that `GetRandomCookie` draws is an index of the member list. -/
theorem C15_cursor_invariant :
    (∀ (p : Pkg) (now : Time), cursorInv (NewCookieManager p now).2) ∧
    (∀ cm : CookieManager, cursorInv cm →
      cursorInv cm.GetNextCookie.1 ∧
      (∀ (r : Nat) (st : CookieManager) (res : String × Option String),
        cm.GetRandomCookie r = some (st, res) → cursorInv st) ∧
      (∀ c : String, cursorInv (cm.RemoveCookie c).1)) ∧
    (∀ cm : CookieManager, Reachable cm →
      cursorInv cm ∧
      (cm.Cookies ≠ [] →
        cm.currentIndex < cm.Cookies.length ∧
        (∃ s, cm.GetNextCookie.1.Cookies[cm.GetNextCookie.1.currentIndex]? = some s ∧
          cm.GetNextCookie.2 = (s, none)) ∧
        (∀ r, r < cm.Cookies.length →
          ∃ st s, cm.GetRandomCookie r = some (st, s, none) ∧
            st.Cookies[st.currentIndex]? = some s))) := by
  refine ⟨cursorInv_build, ?_, ?_⟩
  · intro cm h
    exact ⟨cursorInv_next cm h, fun r st res hres => cursorInv_random cm st r res h hres,
      fun c => cursorInv_remove cm c h⟩
  · intro cm hreach
    have hinv := cursorInv_reachable cm hreach
    refine ⟨hinv, ?_⟩
    intro hne
    have hpos : 0 < cm.Cookies.length := List.length_pos.mpr hne
    refine ⟨?_, ?_, ?_⟩
    · rcases hinv with ⟨h, _⟩ | h
      · exact absurd h hne
      · exact h
    · obtain ⟨h1, h2, h3⟩ := getNextCookie_pos cm hpos
      refine ⟨cm.GetNextCookie.2.1, ?_, ?_⟩
      · rw [h1]; exact h2
      · rw [← h3]
    · intro r hr
      refine ⟨_, _, getRandomCookie_lt cm r hr, ?_⟩
      exact List.getElem?_eq_getElem hr

/-- C15 on the view built from `["a", "b"]`: it is reachable, so the
invariant holds on it, and it holds after `"b"` is removed with the cursor
at 1, since the cursor is reset to 0. -/
theorem C15_cursor_invariant_witness :
    cursorInv (NewCookieManager ⟨["a", "b"], emptyRegistry⟩ 0).2 ∧
    cursorInv (CookieManager.RemoveCookie ⟨["a", "b"], 1⟩ "b").1 ∧
    CookieManager.RemoveCookie ⟨["a", "b"], 1⟩ "b" = (⟨["a"], 0⟩, none) :=
  ⟨(C15_cursor_invariant.2.2 _ (Reachable.build ⟨["a", "b"], emptyRegistry⟩ 0)).1,
   (C15_cursor_invariant.2.1 ⟨["a", "b"], 1⟩ (by decide)).2.2 "b",
   by decide⟩

/-- C16: after `NewCookieManager` runs at time `now`, `IsRateLimited(c)` at
any time `q ≥ now` has the same answer on the resulting registry as on the
registry before, for every credential `c`; an entry of the registry is
either kept as it was or it had an expiration `≤ now` and is deleted; and
the Credential Set is unchanged. -/
theorem C16_purge_not_observable (p : Pkg) (now : Time) :
    (∀ (q : Time) (c : String), now ≤ q →
      IsRateLimited (NewCookieManager p now).1 q c = IsRateLimited p q c) ∧
    (∀ k : String,
      (NewCookieManager p now).1.rateLimitCookies k = p.rateLimitCookies k ∨
      ((NewCookieManager p now).1.rateLimitCookies k = none ∧
        ∃ e, p.rateLimitCookies k = some e ∧ e.ExpirationTime ≤ now)) ∧
    GetSGCookies (NewCookieManager p now).1 = GetSGCookies p := by
  refine ⟨fun q c hq => newCookieManager_isRateLimited p now q hq c, ?_, rfl⟩
  intro k
  exact loop_fst_cases now k (GetSGCookies p) p.rateLimitCookies []

/-- C16 on the set `["a", "b"]` with `"a"` expired at 10 and `"b"` held
until 90, the view being built at time 50: the entry of `"a"` is deleted,
that of `"b"` is kept, and the answers at time 60 are as before. -/
theorem C16_purge_not_observable_witness :
    (NewCookieManager ⟨["a", "b"], (emptyRegistry.Store "a" ⟨10⟩).Store "b" ⟨90⟩⟩
      50).1.rateLimitCookies "a" = none ∧
    (NewCookieManager ⟨["a", "b"], (emptyRegistry.Store "a" ⟨10⟩).Store "b" ⟨90⟩⟩
      50).1.rateLimitCookies "b" = some ⟨90⟩ ∧
    IsRateLimited
      (NewCookieManager ⟨["a", "b"], (emptyRegistry.Store "a" ⟨10⟩).Store "b" ⟨90⟩⟩ 50).1
      60 "a" =
    IsRateLimited ⟨["a", "b"], (emptyRegistry.Store "a" ⟨10⟩).Store "b" ⟨90⟩⟩ 60 "a" :=
  ⟨by decide, by decide,
   (C16_purge_not_observable ⟨["a", "b"], (emptyRegistry.Store "a" ⟨10⟩).Store "b" ⟨90⟩⟩
      50).1 60 "a" (by decide)⟩

/-- C18: whenever the method `RemoveCookie`, `GetNextCookie` or
`GetRandomCookie` returns an error, the view (its member list and its
cursor) is exactly what it was before the call. -/
theorem C18_failed_calls_atomic (cm : CookieManager) :
    (∀ c : String, (cm.RemoveCookie c).2 ≠ none → (cm.RemoveCookie c).1 = cm) ∧
    (cm.GetNextCookie.2.2 ≠ none → cm.GetNextCookie.1 = cm) ∧
    (∀ (r : Nat) (st : CookieManager) (s e : String),
      cm.GetRandomCookie r = some (st, s, some e) → st = cm) := by
  refine ⟨?_, ?_, ?_⟩
  · intro c herr
    by_cases hc : c ∈ cm.Cookies
    · rw [cm_removeCookie_mem cm c hc] at herr
      exact absurd rfl herr
    · by_cases hne : cm.Cookies = []
      · rw [cm_removeCookie_empty cm c hne]
      · rw [cm_removeCookie_not_mem cm c hne hc]
  · intro herr
    by_cases h0 : cm.Cookies.length = 0
    · rw [getNextCookie_empty cm h0]
    · exact absurd (getNextCookie_pos cm (Nat.pos_of_ne_zero h0)).2.2 herr
  · intro r st s e hres
    by_cases h0 : cm.Cookies.length = 0
    · rw [getRandomCookie_empty cm r h0] at hres
      cases hres
      rfl
    · by_cases hr : r < cm.Cookies.length
      · rw [getRandomCookie_lt cm r hr] at hres
        cases hres
      · rw [getRandomCookie_ge cm r h0 (Nat.le_of_not_lt hr)] at hres
        cases hres

/-- C18 on the view `["a", "b"]` with the cursor at 1, from which `"z"` is
removed, and on the empty view: the failed calls return the view they were
given. -/
theorem C18_failed_calls_atomic_witness :
    CookieManager.RemoveCookie ⟨["a", "b"], 1⟩ "z" =
      (⟨["a", "b"], 1⟩, some "RemoveCookie -> cookie not found") ∧
    (CookieManager.RemoveCookie ⟨["a", "b"], 1⟩ "z").1 = ⟨["a", "b"], 1⟩ ∧
    (CookieManager.GetNextCookie ⟨[], 0⟩).1 = ⟨[], 0⟩ :=
  ⟨by decide,
   (C18_failed_calls_atomic ⟨["a", "b"], 1⟩).1 "z" (by decide),
   (C18_failed_calls_atomic ⟨[], 0⟩).2.1 (by decide)⟩

end config
